import Mathlib

/-!
Verification of the structured-output enforcement and retry engine:
the JSON-schema strictifier (`app/helpers/pydantic.py`) and the bounded
retry state machine (`app/services/llm_helper/llm_helper.py`).

JSON documents are modelled by the inductive type `JVal`; Python dicts
become association lists operated on with `getKey` / `setKey` / `popKey` /
`updateKeys`, which reproduce the observable behaviour of Python dict
reads, in-place writes, `pop` and `update` (insertion order preserved,
existing keys keep their position).  The Python code mutates schemas in
place; here each function returns the transformed value, and the `root`
parameter of the strictifier stays the caller-supplied tree.  Recursion
in the source is unbounded (a cyclic reference chain would exhaust the
Python stack); the model makes this explicit with a fuel parameter that
decreases on every recursive call, with fuel exhaustion as a distinct
error mirroring Python's RecursionError.
-/

/-- Python `s.startswith(pre)` on character lists. -/
def startsAux : List Char → List Char → Bool
  | [], _ => true
  | _ :: _, [] => false
  | p :: ps, c :: cs => p == c && startsAux ps cs

/-- Python `s.split("/")`: cut at every slash, keeping empty pieces
(`"".split("/") == [""]`, `"/".split("/") == ["", ""]`). -/
def splitSlash : List Char → List Char → List String
  | [], acc => [String.mk acc.reverse]
  | c :: rest, acc =>
    if c = '/' then String.mk acc.reverse :: splitSlash rest []
    else splitSlash rest (c :: acc)

/-- Characters removed by Python `str.strip()` with no argument. -/
def isPySpace (c : Char) : Bool :=
  c == ' ' || c == '\t' || c == '\n' || c == '\r' ||
    c == Char.ofNat 0x0B || c == Char.ofNat 0x0C

/-- Python `s.strip()`: drop leading and trailing whitespace. -/
def pyStrip (s : String) : String :=
  String.mk (((s.data.dropWhile isPySpace).reverse.dropWhile isPySpace).reverse)

/-- Replace leftmost non-overlapping occurrences of a non-empty pattern,
scanning left to right.  The extra `Nat` is spare fuel; every step consumes
at least one input character, so `length input + 1` is always enough. -/
def replaceFuel (pat rep : List Char) : Nat → List Char → List Char
  | 0, l => l
  | _ + 1, [] => []
  | f + 1, c :: rest =>
    if startsAux pat (c :: rest) then
      rep ++ replaceFuel pat rep f ((c :: rest).drop pat.length)
    else c :: replaceFuel pat rep f rest

/-- Python `s.replace(pat, rep)`.  An empty pattern inserts `rep` at every
boundary, exactly as Python does (`"ab".replace("", "x") == "xaxbx"`). -/
def pyReplace (s pat rep : String) : String :=
  match pat.data with
  | [] => String.mk (rep.data ++ s.data.foldr (fun c acc => c :: (rep.data ++ acc)) [])
  | _ => String.mk (replaceFuel pat.data rep.data (s.data.length + 1) s.data)

/-- JSON-like values: null, booleans, numbers, strings, arrays and objects.
Objects are ordered key/value lists, mirroring Python dict insertion order. -/
inductive JVal where
  | null : JVal
  | bool (b : Bool) : JVal
  | num (n : Int) : JVal
  | str (s : String) : JVal
  | arr (xs : List JVal) : JVal
  | obj (kvs : List (String × JVal)) : JVal
deriving Repr

/-- Contents of a Python dict: an ordered association list. -/
abbrev KVs := List (String × JVal)

/-- Python `d.get(k)` / `d[k]`: first (and, for genuine dicts, only) binding. -/
def getKey : KVs → String → Option JVal
  | [], _ => none
  | (k, v) :: rest, key => if k = key then some v else getKey rest key

/-- Python `d[k] = v`: replace the value in place if the key exists,
otherwise append the new binding at the end. -/
def setKey : KVs → String → JVal → KVs
  | [], key, value => [(key, value)]
  | (k, v) :: rest, key, value =>
    if k = key then (k, value) :: rest else (k, v) :: setKey rest key value

/-- Python `d.pop(k, None)`: drop the binding for `k` if present. -/
def popKey : KVs → String → KVs
  | [], _ => []
  | (k, v) :: rest, key => if k = key then rest else (k, v) :: popKey rest key

/-- Python `d.update(other)`: write each binding of `other`, in order, into `d`. -/
def updateKeys (d : KVs) (other : KVs) : KVs :=
  other.foldl (fun acc kv => setKey acc kv.1 kv.2) d

/-- Python `has_more_than_n_keys(obj, n)` from `app/helpers/pydantic.py`. -/
def hasMoreThanNKeys (d : KVs) (n : Nat) : Bool :=
  d.length > n

/-- Python truthiness of a JSON value (`if ref:` etc.). -/
def pyTruthy : JVal → Bool
  | .null => false
  | .bool b => b
  | .num n => n ≠ 0
  | .str s => s ≠ ""
  | .arr xs => !xs.isEmpty
  | .obj kvs => !kvs.isEmpty

/-- Errors raised by the strictifier, one constructor per Python exception
site: the TypeError for non-dict nodes, the assertion on a non-string
reference, the ValueError for a malformed reference, the KeyError for a
missing path component, the assertion on a non-dict entry met while
resolving, the TypeError from subscripting a non-dict root, and fuel
exhaustion standing for Python's RecursionError on cyclic references. -/
inductive SchemaErr where
  | notDict (path : List String) : SchemaErr
  | refNotString (path : List String) : SchemaErr
  | badRefFormat (ref : String) : SchemaErr
  | keyError (key : String) : SchemaErr
  | refNonDict (ref : String) : SchemaErr
  | rootNotDict (ref : String) : SchemaErr
  | recursionLimit : SchemaErr
deriving DecidableEq, Repr

/-- Loop body of `resolve_ref`: follow one path component after another,
requiring every entry met along the way to be a dict. -/
def walkRef (ref : String) : KVs → List String → Except SchemaErr KVs
  | cur, [] => .ok cur
  | cur, key :: rest =>
    match getKey cur key with
    | none => .error (.keyError key)
    | some v =>
      match v with
      | .obj kvs => walkRef ref kvs rest
      | _ => .error (.refNonDict ref)

/-- Python `resolve_ref(root=..., ref=...)` from `app/helpers/pydantic.py`:
reject references that do not start with `#/`, then walk the slash-separated
path through the root document. -/
def resolveRef (root : JVal) (ref : String) : Except SchemaErr KVs :=
  if startsAux "#/".data ref.data then
    match root with
    | .obj rkvs => walkRef ref rkvs (splitSlash (ref.data.drop 2) [])
    | _ => .error (.rootNotDict ref)
  else .error (.badRefFormat ref)

/-- Recurse into the values of a dict-of-schemas (the `$defs` / `definitions`
containers and the `properties` mapping), extending the error path with each
key.  `rec` is the recursive strictification call. -/
def ensureKVs (rec : JVal → List String → Except SchemaErr KVs)
    (base : List String) : KVs → Except SchemaErr KVs
  | [] => .ok []
  | (k, v) :: rest => do
    let v' ← rec v (base ++ [k])
    let rest' ← ensureKVs rec base rest
    .ok ((k, .obj v') :: rest')

/-- Recurse into the members of a schema list (`anyOf`, multi-member `allOf`),
extending the error path with the decimal member index. -/
def ensureListIdx (rec : JVal → List String → Except SchemaErr KVs)
    (base : List String) : Nat → List JVal → Except SchemaErr (List JVal)
  | _, [] => .ok []
  | i, x :: rest => do
    let x' ← rec x (base ++ [toString i])
    let rest' ← ensureListIdx rec base (i + 1) rest
    .ok (.obj x' :: rest')

/-- Lines 41-46 of `pydantic.py`: strictify every schema in the `$defs`
container (when that container is a dict). -/
def defsStep (rec : JVal → List String → Except SchemaErr KVs)
    (d : KVs) (path : List String) : Except SchemaErr KVs :=
  match getKey d "$defs" with
  | some (.obj defs) => do
    let defs' ← ensureKVs rec (path ++ ["$defs"]) defs
    .ok (setKey d "$defs" (.obj defs'))
  | _ => .ok d

/-- Lines 48-55 of `pydantic.py`: same treatment for the legacy
`definitions` container. -/
def definitionsStep (rec : JVal → List String → Except SchemaErr KVs)
    (d : KVs) (path : List String) : Except SchemaErr KVs :=
  match getKey d "definitions" with
  | some (.obj defs) => do
    let defs' ← ensureKVs rec (path ++ ["definitions"]) defs
    .ok (setKey d "definitions" (.obj defs'))
  | _ => .ok d

/-- Lines 57-59 of `pydantic.py`: an object node with no
`additionalProperties` key gets `additionalProperties: false`. -/
def typeStep (d : KVs) : KVs :=
  match getKey d "type", getKey d "additionalProperties" with
  | some (.str "object"), none => setKey d "additionalProperties" (.bool false)
  | _, _ => d

/-- Lines 63-71 of `pydantic.py`: when `properties` is a dict, set `required`
to the full list of property names and strictify every property value. -/
def propertiesStep (rec : JVal → List String → Except SchemaErr KVs)
    (d : KVs) (path : List String) : Except SchemaErr KVs :=
  match getKey d "properties" with
  | some (.obj props) => do
    let d' := setKey d "required" (.arr (props.map (fun kv => .str kv.1)))
    let props' ← ensureKVs rec (path ++ ["properties"]) props
    .ok (setKey d' "properties" (.obj props'))
  | _ => .ok d

/-- Lines 75-79 of `pydantic.py`: strictify a dict-valued `items`. -/
def itemsStep (rec : JVal → List String → Except SchemaErr KVs)
    (d : KVs) (path : List String) : Except SchemaErr KVs :=
  match getKey d "items" with
  | some (.obj ikvs) => do
    let items' ← rec (.obj ikvs) (path ++ ["items"])
    .ok (setKey d "items" (.obj items'))
  | _ => .ok d

/-- Lines 82-89 of `pydantic.py`: strictify every `anyOf` variant. -/
def anyOfStep (rec : JVal → List String → Except SchemaErr KVs)
    (d : KVs) (path : List String) : Except SchemaErr KVs :=
  match getKey d "anyOf" with
  | some (.arr xs) => do
    let xs' ← ensureListIdx rec (path ++ ["anyOf"]) 0 xs
    .ok (setKey d "anyOf" (.arr xs'))
  | _ => .ok d

/-- Lines 92-107 of `pydantic.py`: a single-member `allOf` is strictified and
spliced into the parent (parent keys overwritten by the member's, then the
`allOf` key dropped); a list of any other length has each member strictified
in place. -/
def allOfStep (rec : JVal → List String → Except SchemaErr KVs)
    (d : KVs) (path : List String) : Except SchemaErr KVs :=
  match getKey d "allOf" with
  | some (.arr [x]) => do
    let xk ← rec x (path ++ ["allOf", "0"])
    .ok (popKey (updateKeys d xk) "allOf")
  | some (.arr xs) => do
    let xs' ← ensureListIdx rec (path ++ ["allOf"]) 0 xs
    .ok (setKey d "allOf" (.arr xs'))
  | _ => .ok d

/-- Lines 112-113 of `pydantic.py`: drop a `default` key whose value is null. -/
def defaultStep (d : KVs) : KVs :=
  match getKey d "default" with
  | some .null => popKey d "default"
  | _ => d

/-- The pipeline of lines 41-113 of `pydantic.py`, in source order, applied
before the `$ref` handling. -/
def preRefSteps (rec : JVal → List String → Except SchemaErr KVs)
    (d : KVs) (path : List String) : Except SchemaErr KVs := do
  let d ← defsStep rec d path
  let d ← definitionsStep rec d path
  let d := typeStep d
  let d ← propertiesStep rec d path
  let d ← itemsStep rec d path
  let d ← anyOfStep rec d path
  let d ← allOfStep rec d path
  .ok (defaultStep d)

/-- Lines 120-137 of `pydantic.py`: a truthy `$ref` co-occurring with other
keys is resolved against the root; the node is updated with
`{**resolved, **json_schema}` (so its own keys win), the `$ref` key is
popped, and the merged node is strictified again.  `recFull` is the full
recursive call (`_ensure_strict_json_schema(json_schema, path, root)`). -/
def refStep (recFull : JVal → List String → Except SchemaErr KVs)
    (root : JVal) (d : KVs) (path : List String) : Except SchemaErr KVs :=
  match getKey d "$ref" with
  | some r =>
    if pyTruthy r ∧ hasMoreThanNKeys d 1 then
      match r with
      | .str ref => do
        let body ← resolveRef root ref
        let merged := popKey (updateKeys d (updateKeys body d)) "$ref"
        recFull (.obj merged) path
      | _ => .error (.refNotString path)
    else .ok d
  | none => .ok d

/-- Python `_ensure_strict_json_schema(json_schema, path=..., root=...)`,
with a fuel parameter that decreases on every recursive call.  A non-dict
node is the TypeError of line 38; otherwise the steps of lines 41-137 run
in source order and the result dict's contents are returned. -/
def ensureStrict (fuel : Nat) : JVal → List String → JVal → Except SchemaErr KVs :=
  match fuel with
  | 0 => fun _ _ _ => .error .recursionLimit
  | fuel + 1 => fun s path root =>
    match s with
    | .obj d => do
      let d' ← preRefSteps (fun v p => ensureStrict fuel v p root) d path
      refStep (fun v p => ensureStrict fuel v p root) root d' path
    | _ => .error (.notDict path)

/-- Python `to_strict_json_schema(model)` (lines 12-26 of `pydantic.py`),
with the model represented by its JSON schema: the schema is strictified
with an empty path and itself as root. -/
def toStrictJsonSchema (fuel : Nat) (schema : JVal) : Except SchemaErr KVs :=
  ensureStrict fuel schema [] schema

/-! ## The retry engine of `app/services/llm_helper/llm_helper.py`

`safe_ainvoke` drives a chain (a langchain runnable holding a prompt, a
bound model name and the provider `extra_body` dict) against a pydantic
output model, retrying on parse failures.  The chain's mutable state is
`ChainState`; the external world (generation calls, the pydantic parser,
the `json_repair` library, the prompt registry) is an `LLMEnv`.  The
output model is represented by its JSON schema (`to_strict_json_schema`
consumes nothing else from it). -/

/-- Line 13 of `llm_helper.py`. -/
def MAX_ATTEMPTS_LLM : Nat := 2

/-- Python `LLMHelper.validate_and_fix_json` (lines 107-115), with the
external `json_repair.repair_json` passed in as a function: strip the
repair result and return it unless it is empty or the `'""'` sentinel,
in which case return the original response. -/
def validateAndFixJson (repairJson : String → String) (response : String) : String :=
  let invalidJson := "\"\""
  let repairAttempt := pyStrip (repairJson response)
  if repairAttempt ≠ "" ∧ repairAttempt ≠ invalidJson then repairAttempt else response

/-- A prompt message: either one of the pre-existing messages (opaque),
the system message created from a plain template's text, or the
`llm_retry` system message with its three partial variables. -/
inductive Msg where
  | base (i : Nat) : Msg
  | fromPlain (template : String) : Msg
  | retry (previousResponse : String) (errorMessage : String)
      (formatInstructions : JVal) : Msg
deriving Repr

/-- The shape of `chain.prompt`: a `ChatPromptTemplate` (message list), a
plain `PromptTemplate`, or anything else. -/
inductive PromptKind where
  | chat (messages : List Msg) : PromptKind
  | plain (template : String) : PromptKind
  | other : PromptKind
deriving Repr

/-- The runtime type of the chain, as dispatched on by
`_ensure_llm_and_extra_body` and `__append_llm_retry_prompt`. -/
inductive ChainKind where
  | llmChain : ChainKind
  | agentExecutor : ChainKind
  | runnableBinding : ChainKind
  | unknown : ChainKind
deriving Repr, DecidableEq

/-- Mutable state of the chain object shared across invocations:
`chain.bound.name`, `chain.prompt`, and the provider `extra_body` dict
(`none` when the attribute is `None`). -/
structure ChainState where
  kind : ChainKind
  boundName : String
  prompt : PromptKind
  extraBody : Option KVs
deriving Repr

/-- The caller's `input_dict`, reduced to the one slot `safe_ainvoke`
touches: `format_instructions`. -/
structure InputDict where
  formatInstructions : Option JVal
deriving Repr

/-- External collaborators of one invocation: the generation call (indexed
by how many calls were already issued; an `error` is a raised fault), the
pydantic parser (an `error` is an `OutputParserException` message), the
`json_repair` library, and the prompt registry entry for `llm_retry`
(`none` models `PromptNotFoundError`). -/
structure LLMEnv (α : Type) where
  responses : Nat → Except String String
  parse : String → Except String α
  repairJson : String → String
  retryTemplate : Option String

/-- Exceptions `safe_ainvoke` can propagate besides the re-raised parse
error: the TypeError of `_ensure_llm_and_extra_body`, a strictification
error, the KeyError on a missing schema title, a raised generation call,
and the two failures of `__append_llm_retry_prompt`. -/
inductive SafeFault where
  | chainTypeError : SafeFault
  | schemaError (e : SchemaErr) : SafeFault
  | titleKeyError : SafeFault
  | callFault (e : String) : SafeFault
  | promptNotFound : SafeFault
  | unknownChainType : SafeFault
deriving Repr

/-- How one invocation ends: a parsed value, raw text (schema-less mode),
the last parse error re-raised after the bound is reached, a propagated
fault, or the (unreachable from entry) implicit `None` of the `while`
loop running out. -/
inductive SafeOutcome (α : Type) where
  | value (v : α) : SafeOutcome α
  | text (s : String) : SafeOutcome α
  | exhausted (lastError : String) : SafeOutcome α
  | fault (e : SafeFault) : SafeOutcome α
  | loopExit : SafeOutcome α
deriving Repr

/-- Snapshot taken at each generation call: the prompt sent and the
`response_format` slot in force. -/
structure CallRecord where
  prompt : PromptKind
  slot : Option JVal
deriving Repr

/-- Result of one `safe_ainvoke` invocation: the outcome, the final chain
and input-dict state, and one record per generation call issued. -/
structure RunResult (α : Type) where
  outcome : SafeOutcome α
  chain : ChainState
  input : InputDict
  log : List CallRecord
deriving Repr

/-- The `response_format` slot currently on the chain's `extra_body`. -/
def slotOf (c : ChainState) : Option JVal :=
  match c.extraBody with
  | none => none
  | some eb => getKey eb "response_format"

/-- Python `_ensure_llm_and_extra_body` (lines 173-203 of `pydantic.py`):
TypeError on an unknown chain type, otherwise make sure `extra_body` is a
dict (installing `{}` when the attribute was `None`) and hand it back. -/
def ensureLlmAndExtraBody (c : ChainState) : Except SafeFault (ChainState × KVs) :=
  match c.kind with
  | .unknown => .error .chainTypeError
  | _ =>
    let eb := c.extraBody.getD []
    .ok ({ c with extraBody := some eb }, eb)

/-- Lines 44-51 of `llm_helper.py`: the OpenAI `response_format` payload
built from the strict schema and its `title`. -/
def buildResponseFormat (sch : KVs) (title : JVal) : JVal :=
  .obj [("type", .str "json_schema"),
        ("json_schema", .obj
          [("name", title), ("strict", .bool true), ("schema", .obj sch)])]

/-- Python `list.insert(-1, x)`: insert before the last element (at the
front when the list is empty). -/
def insertNegOne (l : List Msg) (x : Msg) : List Msg :=
  l.dropLast ++ x :: l.drop (l.length - 1)

/-- Python `LLMHelper.__append_llm_retry_prompt` (lines 119-155): fetch the
`llm_retry` template, strip the raw response out of the error message,
build the retry system message, and mutate the chain: rename
`chain.bound.name` with a `- Retry {attempt}` suffix, then insert the
message at index `-1` of a chat prompt or rebuild a plain prompt as a
two-message chat.  Unknown chain types raise ValueError. -/
def appendLlmRetryPrompt (env : LLMEnv α) (c : ChainState)
    (response errorMessage : String) (formatInstructions : JVal)
    (attempt : Nat) : Except SafeFault ChainState :=
  match env.retryTemplate with
  | none => .error .promptNotFound
  | some _ =>
    let errorMessage := pyReplace errorMessage response ""
    let llmRetry := Msg.retry response errorMessage formatInstructions
    match c.kind with
    | .runnableBinding =>
      let c := { c with boundName := c.boundName ++ " - Retry " ++ toString attempt }
      match c.prompt with
      | .chat msgs => .ok { c with prompt := .chat (insertNegOne msgs llmRetry) }
      | .plain tmpl => .ok { c with prompt := .chat [.fromPlain tmpl, llmRetry] }
      | .other => .ok c
    | _ => .error .unknownChainType

/-- The `finally` block of lines 100-105: when the iteration obtained an
`extra_body` dict, either pop `response_format` (no previous value) or
write the previous value back. -/
def restoreSlot (c : ChainState) (prev : Option JVal) : ChainState :=
  match c.extraBody with
  | none => c
  | some eb =>
    match prev with
    | none => { c with extraBody := some (popKey eb "response_format") }
    | some v => { c with extraBody := some (setKey eb "response_format" v) }

/-- Outcome of one iteration of the `while` loop: terminal without having
issued a call, terminal after a call, or proceed to the next attempt. -/
inductive IterOut (α : Type) where
  | doneNoCall (o : SafeOutcome α) (c : ChainState) (inp : InputDict) : IterOut α
  | done (o : SafeOutcome α) (c : ChainState) (inp : InputDict)
      (cr : CallRecord) : IterOut α
  | next (c : ChainState) (inp : InputDict) (cr : CallRecord) : IterOut α

/-- The retry path shared by the two `except OutputParserException` uses
(lines 77-95): bump the attempt counter; past the bound, re-raise the parse
error; otherwise append the retry prompt (whose own failure is fatal) and
continue.  `prev` is `some p` when the build phase installed a response
format this iteration (so the `finally` block restores `p`), `none` when
`extra_body` was never obtained. -/
def retryFlow (env : LLMEnv α) (attempt : Nat) (c : ChainState)
    (inp : InputDict) (cr : CallRecord) (responseText e : String)
    (prev : Option (Option JVal)) : IterOut α :=
  let fin := fun (c : ChainState) =>
    match prev with
    | none => c
    | some p => restoreSlot c p
  if attempt + 1 > MAX_ATTEMPTS_LLM then
    .done (.exhausted e) (fin c) inp cr
  else
    match appendLlmRetryPrompt env c responseText e
        (inp.formatInstructions.getD (.str "")) (attempt + 1) with
    | .error f => .done (.fault f) (fin c) inp cr
    | .ok c' => .next (fin c') inp cr

/-- The call-and-parse phase (lines 61-75): snapshot the request, issue the
generation call (a raised call is a propagated fault), treat an empty
payload as an `OutputParserException`, return raw text when no output model
was requested, otherwise repair and parse.  `prev` as in `retryFlow`. -/
def callPhase (env : LLMEnv α) (outputModel : Option JVal) (attempt : Nat)
    (c : ChainState) (inp : InputDict) (callIdx : Nat)
    (prev : Option (Option JVal)) : IterOut α :=
  let fin := fun (c : ChainState) =>
    match prev with
    | none => c
    | some p => restoreSlot c p
  let cr : CallRecord := ⟨c.prompt, slotOf c⟩
  match env.responses callIdx with
  | .error f => .done (.fault (.callFault f)) (fin c) inp cr
  | .ok responseText =>
    if responseText = "" then
      retryFlow env attempt c inp cr responseText "Empty response from LLM" prev
    else
      match outputModel with
      | none => .done (.text responseText) (fin c) inp cr
      | some _ =>
        match env.parse (validateAndFixJson env.repairJson responseText) with
        | .ok v => .done (.value v) (fin c) inp cr
        | .error e => retryFlow env attempt c inp cr responseText e prev

/-- One iteration of the `while` loop of `safe_ainvoke` (lines 35-105).
With an output model, the build phase of lines 39-59 runs first: obtain
`extra_body`, strictify the schema, read its `title`, save the previous
`response_format` and install the new one, and default
`input_dict["format_instructions"]` to the schema.  A fault raised between
obtaining `extra_body` and saving the previous value hits the `finally`
block with `previous_response_format` still `None`, which pops the slot. -/
def safeIteration (env : LLMEnv α) (outputModel : Option JVal)
    (strictFuel : Nat) (attempt : Nat) (c : ChainState) (inp : InputDict)
    (callIdx : Nat) : IterOut α :=
  match outputModel with
  | none => callPhase env outputModel attempt c inp callIdx none
  | some om =>
    match ensureLlmAndExtraBody c with
    | .error f => .doneNoCall (.fault f) c inp
    | .ok (c, eb) =>
      match toStrictJsonSchema strictFuel om with
      | .error e =>
        .doneNoCall (.fault (.schemaError e))
          { c with extraBody := some (popKey eb "response_format") } inp
      | .ok sch =>
        match getKey sch "title" with
        | none =>
          .doneNoCall (.fault .titleKeyError)
            { c with extraBody := some (popKey eb "response_format") } inp
        | some title =>
          let prev := getKey eb "response_format"
          let eb := setKey eb "response_format" (buildResponseFormat sch title)
          let c := { c with extraBody := some eb }
          let inp : InputDict := ⟨some (inp.formatInstructions.getD (.obj sch))⟩
          callPhase env outputModel attempt c inp callIdx (some prev)

/-- The `while attempt <= MAX_ATTEMPTS_LLM` loop (lines 35-105).  The fuel
argument only serves termination: from the entry point it dominates the
guard, so the `loopExit` outcomes are unreachable. -/
def safeLoop (env : LLMEnv α) (outputModel : Option JVal) (strictFuel : Nat) :
    Nat → Nat → ChainState → InputDict → List CallRecord → RunResult α
  | 0, _, c, inp, log => ⟨.loopExit, c, inp, log⟩
  | fuel + 1, attempt, c, inp, log =>
    if attempt > MAX_ATTEMPTS_LLM then ⟨.loopExit, c, inp, log⟩
    else
      match safeIteration env outputModel strictFuel attempt c inp log.length with
      | .doneNoCall o c' inp' => ⟨o, c', inp', log⟩
      | .done o c' inp' cr => ⟨o, c', inp', log ++ [cr]⟩
      | .next c' inp' cr =>
        safeLoop env outputModel strictFuel fuel (attempt + 1) c' inp' (log ++ [cr])

/-- Python `LLMHelper.safe_ainvoke` (lines 19-105): run the loop from
`attempt = 0` with an empty call log. -/
def safeAinvoke (env : LLMEnv α) (outputModel : Option JVal)
    (strictFuel : Nat) (c : ChainState) (inp : InputDict) : RunResult α :=
  safeLoop env outputModel strictFuel (MAX_ATTEMPTS_LLM + 1) 0 c inp []

/-- Chain state carried by an iteration outcome. -/
def iterChain : IterOut α → ChainState
  | .doneNoCall _ c _ => c
  | .done _ c _ _ => c
  | .next c _ _ => c

/-- The build phase of an invocation succeeds: either no output model was
requested, or the model's schema strictifies and carries a `title`. -/
def buildPhaseOK : Option JVal → Nat → Prop
  | none, _ => True
  | some m, strictFuel =>
    ∃ sch t, toStrictJsonSchema strictFuel m = .ok sch ∧ getKey sch "title" = some t

/-! ## Concrete instances used by witnesses and counterexamples -/

/-- An environment whose every generation call returns the unparsable text
`"bad"`: parsing always fails, repair is the identity, the retry template
exists. -/
def envParseFail : LLMEnv Unit :=
  { responses := fun _ => .ok "bad",
    parse := fun _ => .error "nope",
    repairJson := fun s => s,
    retryTemplate := some "tpl" }

/-- A RunnableBinding chain with a two-message chat prompt and an
`extra_body` carrying only a temperature. -/
def chainMain : ChainState :=
  { kind := .runnableBinding, boundName := "main",
    prompt := .chat [.base 0, .base 1],
    extraBody := some [("temperature", .num 1)] }

/-- A RunnableBinding chain whose `extra_body` already carries a
`response_format` before the invocation. -/
def chainPreRF : ChainState :=
  { kind := .runnableBinding, boundName := "m", prompt := .chat [.base 0],
    extraBody := some [("response_format", .str "OLD")] }

/-- The schema of a minimal output model: a bare `title`. -/
def omTitle : JVal := .obj [("title", .str "T")]

/-- An environment whose generation calls always return the empty string. -/
def envEmptyResp : LLMEnv Unit :=
  { responses := fun _ => .ok "",
    parse := fun _ => .error "x",
    repairJson := fun s => s,
    retryTemplate := some "tpl" }

/-- An environment answering `"hello"` on every call. -/
def envEcho : LLMEnv Unit :=
  { responses := fun _ => .ok "hello",
    parse := fun _ => .error "nope",
    repairJson := fun s => s,
    retryTemplate := some "tpl" }

/-- An environment failing the first call with `"bad"` and succeeding on the
second with `"good"`. -/
def envOnce : LLMEnv Unit :=
  { responses := fun n => .ok (if n = 0 then "bad" else "good"),
    parse := fun s => if s = "good" then .ok () else .error "err bad msg",
    repairJson := fun s => s,
    retryTemplate := some "tpl" }

/-- A RunnableBinding chain whose prompt is a plain `PromptTemplate`. -/
def chainPlain : ChainState :=
  { kind := .runnableBinding, boundName := "m", prompt := .plain "orig",
    extraBody := none }

/-! ## Structural predicates over schema trees -/

mutual
/-- Every dict node anywhere in the tree satisfies the node predicate `P`. -/
def allDicts (P : KVs → Bool) : JVal → Bool
  | .obj kvs => P kvs && allDictsKVs P kvs
  | .arr xs => allDictsList P xs
  | _ => true

/-- `allDicts` on every element of an array. -/
def allDictsList (P : KVs → Bool) : List JVal → Bool
  | [] => true
  | x :: xs => allDicts P x && allDictsList P xs

/-- `allDicts` on every value of a dict. -/
def allDictsKVs (P : KVs → Bool) : KVs → Bool
  | [] => true
  | (_, v) :: rest => allDicts P v && allDictsKVs P rest
end

/-- Node predicate: keys are unique, as they are in every Python dict. -/
def Pnd : KVs → Bool := fun d => decide ((d.map Prod.fst).Nodup)

/-- Node predicate: a `required` key only occurs alongside a `properties`
key (every real pydantic schema emits them together). -/
def Prp : KVs → Bool := fun d => !(getKey d "required").isSome || (getKey d "properties").isSome

/-- Node predicate: an `additionalProperties` key, when present, is
`false`. -/
def Pap : KVs → Bool := fun d =>
  match getKey d "additionalProperties" with
  | none => true
  | some (.bool false) => true
  | some _ => false

/-- Node predicate: the dict does not carry `key` at all. -/
def PnoKey (key : String) : KVs → Bool := fun d => !(getKey d key).isSome

/-- Tests whether a value is a dict. -/
def isObjB : JVal → Bool
  | .obj _ => true
  | _ => false

mutual
/-- Nesting depth of a value: enough fuel for `ensureStrict` to traverse
it when no reference merge fires. -/
def jdepth : JVal → Nat
  | .obj kvs => 1 + jdepthKVs kvs
  | .arr xs => 1 + jdepthList xs
  | _ => 0

/-- Maximum depth of the elements of an array. -/
def jdepthList : List JVal → Nat
  | [] => 0
  | x :: xs => max (jdepth x) (jdepthList xs)

/-- Maximum depth of the values of a dict. -/
def jdepthKVs : KVs → Nat
  | [] => 0
  | (_, v) :: rest => max (jdepth v) (jdepthKVs rest)
end

/-- The fixed point of `_ensure_strict_json_schema`: dicts on which a
re-run changes nothing.  One field per block of the source, each phrased
on the first-occurrence reads (`getKey`) the code performs: strict `$defs`
and `definitions` values, `additionalProperties` present on object nodes,
`required` equal to the property-name list with strict property values, a
strict dict `items`, strict `anyOf` members, no single-member `allOf` and
strict members otherwise, no null `default`, and no truthy `$ref`
alongside sibling keys. -/
inductive IsStrict : KVs → Prop where
  | mk (d : KVs)
      (defsObj : ∀ defs k v, getKey d "$defs" = some (.obj defs) →
        (k, v) ∈ defs → isObjB v = true)
      (defsStrict : ∀ defs k w, getKey d "$defs" = some (.obj defs) →
        (k, JVal.obj w) ∈ defs → IsStrict w)
      (definitionsObj : ∀ defs k v, getKey d "definitions" = some (.obj defs) →
        (k, v) ∈ defs → isObjB v = true)
      (definitionsStrict : ∀ defs k w, getKey d "definitions" = some (.obj defs) →
        (k, JVal.obj w) ∈ defs → IsStrict w)
      (apOK : getKey d "type" = some (.str "object") →
        ∃ x, getKey d "additionalProperties" = some x)
      (reqOK : ∀ props, getKey d "properties" = some (.obj props) →
        getKey d "required" = some (.arr (props.map (fun kv => JVal.str kv.1))))
      (propsObj : ∀ props k v, getKey d "properties" = some (.obj props) →
        (k, v) ∈ props → isObjB v = true)
      (propsStrict : ∀ props k w, getKey d "properties" = some (.obj props) →
        (k, JVal.obj w) ∈ props → IsStrict w)
      (itemsOK : ∀ ikvs, getKey d "items" = some (.obj ikvs) → IsStrict ikvs)
      (anyOfObj : ∀ xs x, getKey d "anyOf" = some (.arr xs) →
        x ∈ xs → isObjB x = true)
      (anyOfStrict : ∀ xs w, getKey d "anyOf" = some (.arr xs) →
        JVal.obj w ∈ xs → IsStrict w)
      (allOfLen : ∀ xs, getKey d "allOf" = some (.arr xs) → xs.length ≠ 1)
      (allOfObj : ∀ xs x, getKey d "allOf" = some (.arr xs) →
        x ∈ xs → isObjB x = true)
      (allOfStrict : ∀ xs w, getKey d "allOf" = some (.arr xs) →
        JVal.obj w ∈ xs → IsStrict w)
      (defaultOK : getKey d "default" ≠ some JVal.null)
      (refOK : ∀ rv, getKey d "$ref" = some rv → pyTruthy rv = true →
        hasMoreThanNKeys d 1 = false) : IsStrict d

/-- Reachability along the schema edges the strictifier follows: `$defs`
and `definitions` entries, property values, `items`, `anyOf` members and
`allOf` members. -/
inductive SchemaReach : JVal → JVal → Prop where
  | refl (v : JVal) : SchemaReach v v
  | intoDefs {kvs : KVs} {defs : KVs} {k : String} {v n : JVal} :
      getKey kvs "$defs" = some (.obj defs) → (k, v) ∈ defs →
      SchemaReach v n → SchemaReach (.obj kvs) n
  | intoDefinitions {kvs : KVs} {defs : KVs} {k : String} {v n : JVal} :
      getKey kvs "definitions" = some (.obj defs) → (k, v) ∈ defs →
      SchemaReach v n → SchemaReach (.obj kvs) n
  | intoProps {kvs : KVs} {props : KVs} {k : String} {v n : JVal} :
      getKey kvs "properties" = some (.obj props) → (k, v) ∈ props →
      SchemaReach v n → SchemaReach (.obj kvs) n
  | intoItems {kvs : KVs} {ikvs : KVs} {n : JVal} :
      getKey kvs "items" = some (.obj ikvs) →
      SchemaReach (.obj ikvs) n → SchemaReach (.obj kvs) n
  | intoAnyOf {kvs : KVs} {xs : List JVal} {x n : JVal} :
      getKey kvs "anyOf" = some (.arr xs) → x ∈ xs →
      SchemaReach x n → SchemaReach (.obj kvs) n
  | intoAllOf {kvs : KVs} {xs : List JVal} {x n : JVal} :
      getKey kvs "allOf" = some (.arr xs) → x ∈ xs →
      SchemaReach x n → SchemaReach (.obj kvs) n

/-- Shape of the induction hypothesis threaded through the step lemmas:
outputs of the recursive strictification call are strict and keep the
structural predicates. -/
def RecInv (root : JVal) (rec : JVal → List String → Except SchemaErr KVs) : Prop :=
  ∀ v p t', allDicts Pnd v = true → allDicts Prp v = true → rec v p = .ok t' →
    IsStrict t' ∧ allDicts Pnd (.obj t') = true ∧ allDicts Prp (.obj t') = true ∧
      (allDicts Pap v = true → allDicts Pap root = true →
        allDicts Pap (.obj t') = true)

/-- The recursive strictification call only succeeds on dict inputs (a
non-dict node raises the TypeError of line 38). -/
def RecObj (rec : JVal → List String → Except SchemaErr KVs) : Prop :=
  ∀ v p t', rec v p = .ok t' → isObjB v = true

/-- All the fields of `IsStrict` except the `$ref` side condition, as a
plain conjunction: what the pipeline of lines 41-113 establishes before
the `$ref` handling runs. -/
def PreStrict (d : KVs) : Prop :=
  (∀ defs k v, getKey d "$defs" = some (.obj defs) → (k, v) ∈ defs →
    isObjB v = true) ∧
  (∀ defs k w, getKey d "$defs" = some (.obj defs) → (k, JVal.obj w) ∈ defs →
    IsStrict w) ∧
  (∀ defs k v, getKey d "definitions" = some (.obj defs) → (k, v) ∈ defs →
    isObjB v = true) ∧
  (∀ defs k w, getKey d "definitions" = some (.obj defs) →
    (k, JVal.obj w) ∈ defs → IsStrict w) ∧
  (getKey d "type" = some (.str "object") →
    ∃ x, getKey d "additionalProperties" = some x) ∧
  (∀ props, getKey d "properties" = some (.obj props) →
    getKey d "required" = some (.arr (props.map (fun kv => JVal.str kv.1)))) ∧
  (∀ props k v, getKey d "properties" = some (.obj props) → (k, v) ∈ props →
    isObjB v = true) ∧
  (∀ props k w, getKey d "properties" = some (.obj props) →
    (k, JVal.obj w) ∈ props → IsStrict w) ∧
  (∀ ikvs, getKey d "items" = some (.obj ikvs) → IsStrict ikvs) ∧
  (∀ xs x, getKey d "anyOf" = some (.arr xs) → x ∈ xs → isObjB x = true) ∧
  (∀ xs w, getKey d "anyOf" = some (.arr xs) → JVal.obj w ∈ xs → IsStrict w) ∧
  (∀ xs, getKey d "allOf" = some (.arr xs) → xs.length ≠ 1) ∧
  (∀ xs x, getKey d "allOf" = some (.arr xs) → x ∈ xs → isObjB x = true) ∧
  (∀ xs w, getKey d "allOf" = some (.arr xs) → JVal.obj w ∈ xs → IsStrict w) ∧
  (getKey d "default" ≠ some JVal.null)

-- DEFS-END

/-! ## Basic facts about the dict operations -/

theorem getKey_setKey_self (d : KVs) (k : String) (v : JVal) :
    getKey (setKey d k v) k = some v := by
  induction d with
  | nil => simp [setKey, getKey]
  | cons kv rest ih =>
    obtain ⟨k', v'⟩ := kv
    by_cases h : k' = k <;> simp [setKey, getKey, h, ih]

theorem getKey_setKey_ne (d : KVs) (k k' : String) (v : JVal) (h : k' ≠ k) :
    getKey (setKey d k v) k' = getKey d k' := by
  induction d with
  | nil => simp [setKey, getKey, Ne.symm h]
  | cons kv rest ih =>
    obtain ⟨k₀, v₀⟩ := kv
    by_cases h₀ : k₀ = k
    · subst h₀
      simp [setKey, getKey, Ne.symm h]
    · simp [setKey, getKey, h₀, ih]

theorem setKey_of_getKey_eq (d : KVs) (k : String) (v : JVal)
    (h : getKey d k = some v) : setKey d k v = d := by
  induction d with
  | nil => simp [getKey] at h
  | cons kv rest ih =>
    obtain ⟨k₀, v₀⟩ := kv
    by_cases h₀ : k₀ = k
    · subst h₀
      simp [getKey] at h
      simp [setKey, h]
    · simp [getKey, h₀] at h
      simp [setKey, h₀, ih h]

theorem popKey_setKey_of_getKey_none (d : KVs) (k : String) (v : JVal)
    (h : getKey d k = none) : popKey (setKey d k v) k = d := by
  induction d with
  | nil => simp [setKey, popKey]
  | cons kv rest ih =>
    obtain ⟨k₀, v₀⟩ := kv
    by_cases h₀ : k₀ = k
    · subst h₀
      simp [getKey] at h
    · simp [getKey, h₀] at h
      simp [setKey, popKey, h₀, ih h]

theorem getKey_popKey_ne (d : KVs) (k k' : String) (h : k' ≠ k) :
    getKey (popKey d k) k' = getKey d k' := by
  induction d with
  | nil => simp [popKey]
  | cons kv rest ih =>
    obtain ⟨k₀, v₀⟩ := kv
    by_cases h₀ : k₀ = k
    · subst h₀
      simp [popKey, getKey, Ne.symm h]
    · simp [popKey, getKey, h₀, ih]

/-! ## Restoration of the response-format slot -/

theorem appendLlmRetryPrompt_extraBody {env : LLMEnv α} {c : ChainState}
    {r e : String} {f : JVal} {a : Nat} {c' : ChainState}
    (h : appendLlmRetryPrompt env c r e f a = .ok c') :
    c'.extraBody = c.extraBody := by
  unfold appendLlmRetryPrompt at h
  cases htpl : env.retryTemplate <;> rw [htpl] at h
  case none => simp at h
  case some tpl =>
    cases hk : c.kind <;> rw [hk] at h <;> simp only at h
    case runnableBinding =>
      cases hp : c.prompt <;> rw [hp] at h <;>
        simp only [Except.ok.injEq] at h <;> rw [← h]
    all_goals simp at h

theorem slotOf_restore_after_set {c' : ChainState} (eb : KVs) (v : JVal)
    (h : c'.extraBody = some (setKey eb "response_format" v)) :
    slotOf (restoreSlot c' (getKey eb "response_format")) =
      getKey eb "response_format" := by
  cases hp : getKey eb "response_format" with
  | none =>
    simp only [restoreSlot, h, slotOf]
    rw [popKey_setKey_of_getKey_none eb _ _ hp]
    exact hp
  | some p =>
    simp only [restoreSlot, h, slotOf]
    exact getKey_setKey_self _ _ _

theorem slotOf_retryFlow_none {env : LLMEnv α} {attempt : Nat}
    {c : ChainState} {inp : InputDict} {cr : CallRecord} {t e : String} :
    slotOf (iterChain (retryFlow env attempt c inp cr t e none)) = slotOf c := by
  unfold retryFlow
  by_cases hb : attempt + 1 > MAX_ATTEMPTS_LLM
  · simp [hb, iterChain]
  · simp only [hb, if_false]
    cases ha : appendLlmRetryPrompt env c t e (inp.formatInstructions.getD (.str "")) (attempt + 1) with
    | error f => simp [iterChain]
    | ok c' =>
      simp only [iterChain, slotOf, appendLlmRetryPrompt_extraBody ha]

theorem slotOf_retryFlow_set {env : LLMEnv α} {attempt : Nat}
    {c : ChainState} {inp : InputDict} {cr : CallRecord} {t e : String}
    (eb : KVs) (v : JVal)
    (h : c.extraBody = some (setKey eb "response_format" v)) :
    slotOf (iterChain (retryFlow env attempt c inp cr t e
      (some (getKey eb "response_format")))) = getKey eb "response_format" := by
  unfold retryFlow
  by_cases hb : attempt + 1 > MAX_ATTEMPTS_LLM
  · simp only [hb, if_true, iterChain]
    exact slotOf_restore_after_set eb v h
  · simp only [hb, if_false]
    cases ha : appendLlmRetryPrompt env c t e (inp.formatInstructions.getD (.str "")) (attempt + 1) with
    | error f =>
      simp only [iterChain]
      exact slotOf_restore_after_set eb v h
    | ok c' =>
      simp only [iterChain]
      exact slotOf_restore_after_set eb v
        ((appendLlmRetryPrompt_extraBody ha).trans h)

theorem slotOf_callPhase_none {env : LLMEnv α} {om : Option JVal}
    {attempt : Nat} {c : ChainState} {inp : InputDict} {idx : Nat} :
    slotOf (iterChain (callPhase env om attempt c inp idx none)) = slotOf c := by
  unfold callPhase
  cases env.responses idx with
  | error f => simp [iterChain]
  | ok t =>
    by_cases ht : t = ""
    · simp only [ht, if_true]
      exact slotOf_retryFlow_none
    · simp only [ht, if_false]
      cases om with
      | none => simp [iterChain]
      | some m =>
        cases env.parse (validateAndFixJson env.repairJson t) with
        | ok v => simp [iterChain]
        | error e => exact slotOf_retryFlow_none

theorem slotOf_callPhase_set {env : LLMEnv α} {om : Option JVal}
    {attempt : Nat} {c : ChainState} {inp : InputDict} {idx : Nat}
    (eb : KVs) (v : JVal)
    (h : c.extraBody = some (setKey eb "response_format" v)) :
    slotOf (iterChain (callPhase env om attempt c inp idx
      (some (getKey eb "response_format")))) = getKey eb "response_format" := by
  unfold callPhase
  cases env.responses idx with
  | error f =>
    simp only [iterChain]
    exact slotOf_restore_after_set eb v h
  | ok t =>
    by_cases ht : t = ""
    · simp only [ht, if_true]
      exact slotOf_retryFlow_set eb v h
    · simp only [ht, if_false]
      cases om with
      | none =>
        simp only [iterChain]
        exact slotOf_restore_after_set eb v h
      | some m =>
        cases env.parse (validateAndFixJson env.repairJson t) with
        | ok w =>
          simp only [iterChain]
          exact slotOf_restore_after_set eb v h
        | error e => exact slotOf_retryFlow_set eb v h

theorem slotOf_safeIteration (env : LLMEnv α) (om : Option JVal)
    (strictFuel attempt : Nat) (c : ChainState) (inp : InputDict) (idx : Nat)
    (hb : buildPhaseOK om strictFuel) :
    slotOf (iterChain (safeIteration env om strictFuel attempt c inp idx)) =
      slotOf c := by
  cases om with
  | none =>
    unfold safeIteration
    exact slotOf_callPhase_none
  | some m =>
    obtain ⟨sch, t, hsch, ht⟩ := hb
    have hbase : getKey (c.extraBody.getD []) "response_format" = slotOf c := by
      cases hcb : c.extraBody <;> simp [slotOf, hcb, getKey]
    unfold safeIteration
    cases hk : c.kind <;> simp only [ensureLlmAndExtraBody, hk] <;>
      [skip; skip; skip; simp [iterChain]] <;>
      rw [hsch] <;> simp only [ht] <;> rw [← hbase] <;>
      exact slotOf_callPhase_set (c.extraBody.getD []) (buildResponseFormat sch t) rfl

theorem slotOf_safeLoop {env : LLMEnv α} {om : Option JVal}
    {strictFuel : Nat} (hb : buildPhaseOK om strictFuel) :
    ∀ (fuel attempt : Nat) (c : ChainState) (inp : InputDict)
      (log : List CallRecord),
      slotOf (safeLoop env om strictFuel fuel attempt c inp log).chain = slotOf c := by
  intro fuel
  induction fuel with
  | zero => intro attempt c inp log; rfl
  | succ fuel ih =>
    intro attempt c inp log
    unfold safeLoop
    by_cases hg : attempt > MAX_ATTEMPTS_LLM
    · simp [hg]
    · simp only [hg, if_false]
      cases hit : safeIteration env om strictFuel attempt c inp log.length with
      | doneNoCall o c' inp' =>
        have hstep := slotOf_safeIteration env om strictFuel attempt c inp log.length hb
        rw [hit] at hstep
        exact hstep
      | done o c' inp' cr =>
        have hstep := slotOf_safeIteration env om strictFuel attempt c inp log.length hb
        rw [hit] at hstep
        exact hstep
      | next c' inp' cr =>
        have hstep := slotOf_safeIteration env om strictFuel attempt c inp log.length hb
        rw [hit] at hstep
        rw [ih (attempt + 1) c' inp' (log ++ [cr])]
        exact hstep

/-! ## Claim C2 -/

/-- C2 counterexample: for the schema `{}` (no `title`, as a pydantic
`TypeAdapter` schema can be), the build phase faults after `extra_body` is
obtained but before the previous `response_format` is saved, and the
`finally` block then pops a pre-existing `response_format` instead of
restoring it: the slot was `"OLD"` and ends up empty, on an exit path of
`safe_ainvoke`, contradicting the claim that every exit path restores the
slot to its exact pre-invocation value. -/
theorem responseFormat_clobbered_on_prebuild_fault :
    slotOf chainPreRF = some (.str "OLD") ∧
    (safeAinvoke envParseFail (some (JVal.obj [])) 3 chainPreRF ⟨none⟩).outcome
      = .fault .titleKeyError ∧
    slotOf (safeAinvoke envParseFail (some (JVal.obj [])) 3 chainPreRF ⟨none⟩).chain
      = none :=
  ⟨rfl, rfl, rfl⟩

/-- C2 (amended): on every exit path of `safe_ainvoke` that occurs once the
build phase can complete (the output schema strictifies and carries a
`title`, or no output schema was requested), the `response_format` slot of
the call object's `extra_body` is restored to its exact pre-invocation
value; a fault raised during strictification or title lookup instead drops
a pre-existing value, because it fires before the old value is saved. -/
theorem responseFormat_restored_after_build {α : Type} (env : LLMEnv α)
    (om : Option JVal) (strictFuel : Nat) (c : ChainState) (inp : InputDict)
    (hb : buildPhaseOK om strictFuel) :
    slotOf (safeAinvoke env om strictFuel c inp).chain = slotOf c :=
  slotOf_safeLoop hb (MAX_ATTEMPTS_LLM + 1) 0 c inp []

/-- Witness for the amended C2 theorem at a concrete failing invocation:
three parse failures, outcome exhausted, slot still the pre-invocation
absence. -/
theorem responseFormat_restored_witness :
    slotOf (safeAinvoke envParseFail (some omTitle) 3 chainPreRF ⟨none⟩).chain
      = slotOf chainPreRF :=
  responseFormat_restored_after_build envParseFail (some omTitle) 3 chainPreRF ⟨none⟩
    ⟨[("title", .str "T")], .str "T", rfl, rfl⟩

theorem setKey_setKey (d : KVs) (k : String) (a b : JVal) :
    setKey (setKey d k a) k b = setKey d k b := by
  induction d with
  | nil => simp [setKey]
  | cons kv rest ih =>
    obtain ⟨k₀, v₀⟩ := kv
    by_cases h₀ : k₀ = k <;> simp [setKey, h₀, ih]

theorem restoreSlot_after_set (c : ChainState) (eb : KVs) (v : JVal)
    (h : c.extraBody = some (setKey eb "response_format" v)) :
    restoreSlot c (getKey eb "response_format") = { c with extraBody := some eb } := by
  cases hp : getKey eb "response_format" with
  | none =>
    simp only [restoreSlot, h]
    rw [popKey_setKey_of_getKey_none _ _ _ hp]
  | some p =>
    simp only [restoreSlot, h]
    rw [setKey_setKey, setKey_of_getKey_eq _ _ _ hp]

/-- One loop iteration on a RunnableBinding chat chain, with a successful
build, a nonempty response that fails parsing, and retries remaining:
the iteration continues with the retry message inserted before the last
prompt message, the bound name suffixed, and the response-format slot
restored. -/
theorem safeIteration_retry_chat {α : Type} (env : LLMEnv α) {m : JVal}
    {sf : Nat} (attempt : Nat) (c : ChainState) (inp : InputDict) (idx : Nat)
    {sch : KVs} {t : JVal} {tpl tx e : String} {msgs : List Msg}
    (hsch : toStrictJsonSchema sf m = .ok sch)
    (ht : getKey sch "title" = some t)
    (hkind : c.kind = .runnableBinding)
    (hpr : c.prompt = .chat msgs)
    (htpl : env.retryTemplate = some tpl)
    (hr : env.responses idx = .ok tx) (hne : tx ≠ "")
    (hp : env.parse (validateAndFixJson env.repairJson tx) = .error e)
    (hlt : attempt + 1 ≤ MAX_ATTEMPTS_LLM) :
    safeIteration env (some m) sf attempt c inp idx =
      .next
        { kind := c.kind,
          boundName := c.boundName ++ " - Retry " ++ toString (attempt + 1),
          prompt := .chat (insertNegOne msgs
            (Msg.retry tx (pyReplace e tx "")
              (inp.formatInstructions.getD (.obj sch)))),
          extraBody := some (c.extraBody.getD []) }
        ⟨some (inp.formatInstructions.getD (.obj sch))⟩
        ⟨.chat msgs, some (buildResponseFormat sch t)⟩ := by
  unfold safeIteration
  simp only [ensureLlmAndExtraBody, hkind]
  rw [hsch]
  simp only [ht]
  unfold callPhase
  rw [hr]
  simp only [if_neg hne]
  rw [hp]
  unfold retryFlow
  have hgt : ¬(attempt + 1 > MAX_ATTEMPTS_LLM) := by omega
  simp only [if_neg hgt]
  unfold appendLlmRetryPrompt
  rw [htpl]
  simp only [hkind, hpr]
  rw [restoreSlot_after_set _ (c.extraBody.getD []) (buildResponseFormat sch t) rfl]
  simp [slotOf, getKey_setKey_self, hpr]

/-- One loop iteration with a successful build, a nonempty failing response,
and the retry bound already reached: the iteration terminates re-raising the
parse error, with the chain untouched except for the materialized
`extra_body` dict (slot restored). -/
theorem safeIteration_exhaust {α : Type} (env : LLMEnv α) {m : JVal}
    {sf : Nat} (attempt : Nat) (c : ChainState) (inp : InputDict) (idx : Nat)
    {sch : KVs} {t : JVal} {tx e : String}
    (hsch : toStrictJsonSchema sf m = .ok sch)
    (ht : getKey sch "title" = some t)
    (hkind : c.kind = .runnableBinding)
    (hr : env.responses idx = .ok tx) (hne : tx ≠ "")
    (hp : env.parse (validateAndFixJson env.repairJson tx) = .error e)
    (hgt : attempt + 1 > MAX_ATTEMPTS_LLM) :
    safeIteration env (some m) sf attempt c inp idx =
      .done (.exhausted e)
        { c with extraBody := some (c.extraBody.getD []) }
        ⟨some (inp.formatInstructions.getD (.obj sch))⟩
        ⟨c.prompt, some (buildResponseFormat sch t)⟩ := by
  unfold safeIteration
  simp only [ensureLlmAndExtraBody, hkind]
  rw [hsch]
  simp only [ht]
  unfold callPhase
  rw [hr]
  simp only [if_neg hne]
  rw [hp]
  unfold retryFlow
  simp only [if_pos hgt]
  rw [restoreSlot_after_set _ (c.extraBody.getD []) (buildResponseFormat sch t) rfl]
  simp [slotOf, getKey_setKey_self]

theorem safeLoop_next {α : Type} {env : LLMEnv α} {om : Option JVal}
    {sf fuel attempt : Nat} {c c' : ChainState} {inp inp' : InputDict}
    {log : List CallRecord} {cr : CallRecord}
    (hg : attempt ≤ MAX_ATTEMPTS_LLM)
    (hit : safeIteration env om sf attempt c inp log.length = .next c' inp' cr) :
    safeLoop env om sf (fuel + 1) attempt c inp log =
      safeLoop env om sf fuel (attempt + 1) c' inp' (log ++ [cr]) := by
  conv_lhs => unfold safeLoop
  rw [if_neg (by omega), hit]

theorem safeLoop_done {α : Type} {env : LLMEnv α} {om : Option JVal}
    {sf fuel attempt : Nat} {c c' : ChainState} {inp inp' : InputDict}
    {log : List CallRecord} {cr : CallRecord} {o : SafeOutcome α}
    (hg : attempt ≤ MAX_ATTEMPTS_LLM)
    (hit : safeIteration env om sf attempt c inp log.length = .done o c' inp' cr) :
    safeLoop env om sf (fuel + 1) attempt c inp log = ⟨o, c', inp', log ++ [cr]⟩ := by
  conv_lhs => unfold safeLoop
  rw [if_neg (by omega), hit]

/-! ## Claim C1 -/

/-- C1: for an invocation with an output schema (successfully built, on a
retry-capable RunnableBinding chat chain with the retry template available)
whose response fails validation on every allowed attempt, `safe_ainvoke`
issues exactly 3 generation calls — the initial attempt and 2 retries,
never a 4th — and terminates by re-raising the last parse error (the
behaviour the specification surfaces as `RetriesExhaustedError` wrapping
the last `ParseError`). -/
theorem safe_ainvoke_three_calls_then_exhausted {α : Type} (env : LLMEnv α)
    (m : JVal) (sf : Nat) (c : ChainState) (inp : InputDict)
    (sch : KVs) (t : JVal) (tpl : String) (msgs : List Msg)
    (t0 t1 t2 e0 e1 e2 : String)
    (hsch : toStrictJsonSchema sf m = .ok sch)
    (ht : getKey sch "title" = some t)
    (hkind : c.kind = .runnableBinding)
    (hpr : c.prompt = .chat msgs)
    (htpl : env.retryTemplate = some tpl)
    (h0 : env.responses 0 = .ok t0) (hne0 : t0 ≠ "")
    (hp0 : env.parse (validateAndFixJson env.repairJson t0) = .error e0)
    (h1 : env.responses 1 = .ok t1) (hne1 : t1 ≠ "")
    (hp1 : env.parse (validateAndFixJson env.repairJson t1) = .error e1)
    (h2 : env.responses 2 = .ok t2) (hne2 : t2 ≠ "")
    (hp2 : env.parse (validateAndFixJson env.repairJson t2) = .error e2) :
    (safeAinvoke env (some m) sf c inp).outcome = .exhausted e2 ∧
    (safeAinvoke env (some m) sf c inp).log.length = 3 := by
  have s0 := safeIteration_retry_chat env 0 c inp 0
    hsch ht hkind hpr htpl h0 hne0 hp0 (by decide)
  have s1 := safeIteration_retry_chat env 1
    { kind := c.kind,
      boundName := c.boundName ++ " - Retry " ++ toString 1,
      prompt := .chat (insertNegOne msgs
        (Msg.retry t0 (pyReplace e0 t0 "")
          (inp.formatInstructions.getD (.obj sch)))),
      extraBody := some (c.extraBody.getD []) }
    ⟨some (inp.formatInstructions.getD (.obj sch))⟩ 1
    hsch ht hkind rfl htpl h1 hne1 hp1 (by decide)
  have s2 := safeIteration_exhaust env 2
    { kind := c.kind,
      boundName := (c.boundName ++ " - Retry " ++ toString 1) ++ " - Retry " ++ toString 2,
      prompt := .chat (insertNegOne
        (insertNegOne msgs
          (Msg.retry t0 (pyReplace e0 t0 "")
            (inp.formatInstructions.getD (.obj sch))))
        (Msg.retry t1 (pyReplace e1 t1 "")
          (inp.formatInstructions.getD (.obj sch)))),
      extraBody := some (c.extraBody.getD []) }
    ⟨some (inp.formatInstructions.getD (.obj sch))⟩ 2
    hsch ht hkind h2 hne2 hp2 (by decide)
  have lrun : safeAinvoke env (some m) sf c inp =
      safeLoop env (some m) sf (2 + 1) 0 c inp [] := rfl
  rw [lrun, safeLoop_next (by decide) s0, safeLoop_next (by decide) s1,
    safeLoop_done (by decide) s2]
  exact ⟨rfl, rfl⟩

/-- Witness for C1 at a concrete environment: three `"bad"` responses all
failing to parse, ending exhausted with the last error after exactly 3
calls. -/
theorem safe_ainvoke_three_calls_witness :
    (safeAinvoke envParseFail (some omTitle) 3 chainMain ⟨none⟩).outcome
      = .exhausted "nope" ∧
    (safeAinvoke envParseFail (some omTitle) 3 chainMain ⟨none⟩).log.length = 3 :=
  safe_ainvoke_three_calls_then_exhausted envParseFail omTitle 3 chainMain ⟨none⟩
    [("title", .str "T")] (.str "T") "tpl" [.base 0, .base 1]
    "bad" "bad" "bad" "nope" "nope" "nope"
    rfl rfl rfl rfl rfl rfl (by decide) rfl rfl (by decide) rfl rfl (by decide) rfl

/-! ## Claim C10 -/

theorem getKey_getD_extraBody (c : ChainState) :
    getKey (c.extraBody.getD []) "response_format" = slotOf c := by
  cases h : c.extraBody <;> simp [slotOf, h, getKey]

/-- C10: in the exhausted-retries scenario, the retry augmentation has
permanently mutated the shared chain object: `chain.bound.name` carries the
accumulated `" - Retry 1"`, `" - Retry 2"` suffixes and the two retry
system messages remain inserted in `chain.prompt.messages` on exit, while
(in contrast) the response-format slot is back to its pre-invocation
value — so the mutations persist into later invocations reusing the
chain. -/
theorem retry_mutations_persist {α : Type} (env : LLMEnv α)
    (m : JVal) (sf : Nat) (c : ChainState) (inp : InputDict)
    (sch : KVs) (t : JVal) (tpl : String) (msgs : List Msg)
    (t0 t1 t2 e0 e1 e2 : String)
    (hsch : toStrictJsonSchema sf m = .ok sch)
    (ht : getKey sch "title" = some t)
    (hkind : c.kind = .runnableBinding)
    (hpr : c.prompt = .chat msgs)
    (htpl : env.retryTemplate = some tpl)
    (h0 : env.responses 0 = .ok t0) (hne0 : t0 ≠ "")
    (hp0 : env.parse (validateAndFixJson env.repairJson t0) = .error e0)
    (h1 : env.responses 1 = .ok t1) (hne1 : t1 ≠ "")
    (hp1 : env.parse (validateAndFixJson env.repairJson t1) = .error e1)
    (h2 : env.responses 2 = .ok t2) (hne2 : t2 ≠ "")
    (hp2 : env.parse (validateAndFixJson env.repairJson t2) = .error e2) :
    (safeAinvoke env (some m) sf c inp).chain.boundName
        = c.boundName ++ " - Retry " ++ "1" ++ " - Retry " ++ "2" ∧
    (safeAinvoke env (some m) sf c inp).chain.prompt
        = .chat (insertNegOne
            (insertNegOne msgs (Msg.retry t0 (pyReplace e0 t0 "")
              (inp.formatInstructions.getD (.obj sch))))
            (Msg.retry t1 (pyReplace e1 t1 "")
              (inp.formatInstructions.getD (.obj sch)))) ∧
    slotOf (safeAinvoke env (some m) sf c inp).chain = slotOf c := by
  have s0 := safeIteration_retry_chat env 0 c inp 0
    hsch ht hkind hpr htpl h0 hne0 hp0 (by decide)
  have s1 := safeIteration_retry_chat env 1
    { kind := c.kind,
      boundName := c.boundName ++ " - Retry " ++ toString 1,
      prompt := .chat (insertNegOne msgs
        (Msg.retry t0 (pyReplace e0 t0 "")
          (inp.formatInstructions.getD (.obj sch)))),
      extraBody := some (c.extraBody.getD []) }
    ⟨some (inp.formatInstructions.getD (.obj sch))⟩ 1
    hsch ht hkind rfl htpl h1 hne1 hp1 (by decide)
  have s2 := safeIteration_exhaust env 2
    { kind := c.kind,
      boundName := (c.boundName ++ " - Retry " ++ toString 1) ++ " - Retry " ++ toString 2,
      prompt := .chat (insertNegOne
        (insertNegOne msgs
          (Msg.retry t0 (pyReplace e0 t0 "")
            (inp.formatInstructions.getD (.obj sch))))
        (Msg.retry t1 (pyReplace e1 t1 "")
          (inp.formatInstructions.getD (.obj sch)))),
      extraBody := some (c.extraBody.getD []) }
    ⟨some (inp.formatInstructions.getD (.obj sch))⟩ 2
    hsch ht hkind h2 hne2 hp2 (by decide)
  have lrun : safeAinvoke env (some m) sf c inp =
      safeLoop env (some m) sf (2 + 1) 0 c inp [] := rfl
  rw [lrun, safeLoop_next (by decide) s0, safeLoop_next (by decide) s1,
    safeLoop_done (by decide) s2]
  exact ⟨rfl, rfl, getKey_getD_extraBody c⟩

/-- Witness for C10: after the concrete exhausted run, the name carries both
suffixes, both retry messages sit in the prompt, and the slot is restored. -/
theorem retry_mutations_persist_witness :
    (safeAinvoke envParseFail (some omTitle) 3 chainMain ⟨none⟩).chain.boundName
        = "main - Retry 1 - Retry 2" ∧
    (safeAinvoke envParseFail (some omTitle) 3 chainMain ⟨none⟩).chain.prompt
        = .chat (insertNegOne
            (insertNegOne [.base 0, .base 1]
              (Msg.retry "bad" (pyReplace "nope" "bad" "") omTitle))
            (Msg.retry "bad" (pyReplace "nope" "bad" "") omTitle)) ∧
    slotOf (safeAinvoke envParseFail (some omTitle) 3 chainMain ⟨none⟩).chain
        = slotOf chainMain :=
  retry_mutations_persist envParseFail omTitle 3 chainMain ⟨none⟩
    [("title", .str "T")] (.str "T") "tpl" [.base 0, .base 1]
    "bad" "bad" "bad" "nope" "nope" "nope"
    rfl rfl rfl rfl rfl rfl (by decide) rfl rfl (by decide) rfl rfl (by decide) rfl

/-! ## Claim C9 -/

/-- C9 counterexample: with no output schema requested but an empty first
response, `safe_ainvoke` does not return raw text after the first call — the
empty payload raises `OutputParserException`, the engine retries, and after
three empty responses it exhausts the bound: 3 calls, no successful
termination, contradicting the claim that every schema-less invocation
returns the raw text immediately after the first generation call. -/
theorem schemaless_empty_retries_cex :
    (safeAinvoke envEmptyResp none 3 chainMain ⟨none⟩).outcome
      = .exhausted "Empty response from LLM" ∧
    (safeAinvoke envEmptyResp none 3 chainMain ⟨none⟩).log.length = 3 :=
  ⟨rfl, rfl⟩

/-- C9 (amended): for an invocation with no output schema whose first
response is nonempty, `safe_ainvoke` applies no strictification and no
response-format constraint (chain and input are returned untouched, the
call was issued with the pre-existing prompt and slot) and returns the raw
response text, terminating successfully immediately after the first
generation call. -/
theorem schemaless_returns_raw_text {α : Type} (env : LLMEnv α) (sf : Nat)
    (c : ChainState) (inp : InputDict) (t0 : String)
    (h0 : env.responses 0 = .ok t0) (hne0 : t0 ≠ "") :
    safeAinvoke env none sf c inp =
      ⟨.text t0, c, inp, [⟨c.prompt, slotOf c⟩]⟩ := by
  have s0 : safeIteration env (none : Option JVal) sf 0 c inp 0 =
      .done (.text t0) c inp ⟨c.prompt, slotOf c⟩ := by
    unfold safeIteration callPhase
    rw [h0]
    simp only [if_neg hne0]
  have lrun : safeAinvoke env none sf c inp =
      safeLoop env none sf (2 + 1) 0 c inp [] := rfl
  rw [lrun, safeLoop_done (by decide) s0]
  rfl

/-- Witness for the amended C9 theorem at a concrete environment. -/
theorem schemaless_returns_raw_text_witness :
    safeAinvoke envEcho none 3 chainMain ⟨none⟩ =
      ⟨.text "hello", chainMain, ⟨none⟩, [⟨chainMain.prompt, slotOf chainMain⟩]⟩ :=
  schemaless_returns_raw_text envEcho 3 chainMain ⟨none⟩ "hello" rfl (by decide)

/-! ## Claim C8 -/

theorem insertNegOne_eq (l : List Msg) (x : Msg) (h : l ≠ []) :
    insertNegOne l x = l.dropLast ++ [x, l.getLast h] := by
  have hl : l.dropLast ++ [l.getLast h] = l := List.dropLast_append_getLast h
  have hdrop : l.drop (l.length - 1) = [l.getLast h] := by
    conv_lhs => rw [← hl]
    have hlen : (l.dropLast ++ [l.getLast h]).length - 1 = l.dropLast.length := by
      simp
    rw [hlen, List.drop_left]
  unfold insertNegOne
  rw [hdrop]

/-- C8 counterexample: on a chain whose prompt is a plain `PromptTemplate`,
the retry augmentation does not insert the correction instruction
immediately before the final message: it rebuilds the prompt as a
two-message chat in which the retry instruction is itself the final
message.  The second call's request is shown explicitly, and no
decomposition places the retry instruction immediately before a final
message. -/
theorem retry_plain_prompt_cex :
    (safeAinvoke envOnce (some omTitle) 3 chainPlain ⟨none⟩).log.get? 1
      = some ⟨.chat [.fromPlain "orig", .retry "bad" "err  msg" omTitle],
          some (buildResponseFormat [("title", .str "T")] (.str "T"))⟩ ∧
    ∀ (pre : List Msg) (lastM : Msg),
      [Msg.fromPlain "orig", Msg.retry "bad" "err  msg" omTitle]
        ≠ pre ++ [Msg.retry "bad" "err  msg" omTitle, lastM] := by
  refine ⟨rfl, ?_⟩
  intro pre lastM h
  rcases pre with _ | ⟨p, ps⟩
  · simp at h
  · rcases ps with _ | ⟨q, qs⟩ <;> simp at h

/-- C8 (amended): for every retryable parse failure with retries remaining
on a RunnableBinding chain with a chat prompt, the next attempt's request
contains one additional system-level instruction inserted immediately
before the final message, built from the previous raw response, the error
message with the raw response text removed from it, and the format
instructions; a plain-template prompt is instead rebuilt as a two-message
chat whose second (final) message is the instruction. -/
theorem retry_request_augmented {α : Type} (env : LLMEnv α) {m : JVal}
    {sf : Nat} (attempt : Nat) (c : ChainState) (inp : InputDict) (idx : Nat)
    {sch : KVs} {t : JVal} {tpl tx e : String} {msgs : List Msg}
    (hsch : toStrictJsonSchema sf m = .ok sch)
    (ht : getKey sch "title" = some t)
    (hkind : c.kind = .runnableBinding)
    (hpr : c.prompt = .chat msgs)
    (htpl : env.retryTemplate = some tpl)
    (hr : env.responses idx = .ok tx) (hne : tx ≠ "")
    (hp : env.parse (validateAndFixJson env.repairJson tx) = .error e)
    (hlt : attempt + 1 ≤ MAX_ATTEMPTS_LLM)
    (hms : msgs ≠ []) :
    ∃ c' inp' cr,
      safeIteration env (some m) sf attempt c inp idx = .next c' inp' cr ∧
      c'.prompt = .chat (msgs.dropLast ++
        [Msg.retry tx (pyReplace e tx "")
          (inp.formatInstructions.getD (.obj sch)),
         msgs.getLast hms]) := by
  refine ⟨_, _, _,
    safeIteration_retry_chat env attempt c inp idx hsch ht hkind hpr htpl hr hne hp hlt, ?_⟩
  simp only
  rw [insertNegOne_eq msgs _ hms]

/-- Witness for the amended C8 theorem at a concrete failing first call. -/
theorem retry_request_augmented_witness :
    ∃ c' inp' cr,
      safeIteration envParseFail (some omTitle) 3 0 chainMain ⟨none⟩ 0
        = .next c' inp' cr ∧
      c'.prompt = .chat ([Msg.base 0, Msg.base 1].dropLast ++
        [Msg.retry "bad" (pyReplace "nope" "bad" "")
          ((⟨none⟩ : InputDict).formatInstructions.getD
            (.obj [("title", .str "T")])),
         [Msg.base 0, Msg.base 1].getLast (by simp)]) :=
  @retry_request_augmented Unit envParseFail omTitle 3 0 chainMain ⟨none⟩ 0
    [("title", .str "T")] (.str "T") "tpl" "bad" "nope" [.base 0, .base 1]
    rfl rfl rfl rfl rfl rfl (by decide) rfl (by decide) (by simp)

/-! ## Claim C6 -/

/-- C6 counterexample: a repair result that is the degenerate empty-object
text (as `json_repair` produces for the input consisting of one opening
brace) is treated as a successful repair and returned, not replaced by the
original input: only the empty result and the empty-string sentinel trigger
the fallback, so the claim's empty-object clause fails. -/
theorem validate_fix_empty_object_cex :
    validateAndFixJson (fun _ => "\x7b\x7d") "\x7b" = "\x7b\x7d" ∧
    validateAndFixJson (fun _ => "\x7b\x7d") "\x7b" ≠ "\x7b" :=
  ⟨rfl, by decide⟩

/-- C6 (amended): for every input text, `validate_and_fix_json` (with the
external `repair_json` modelled as a total function, per that library's
no-raise contract) always returns some text: the stripped repair result
when that is nonempty and different from the `'""'` empty-string sentinel,
and the original input unchanged exactly when the stripped repair result is
empty or equals that sentinel.  An empty-object repair result counts as
success and is returned. -/
theorem validate_and_fix_json_spec (repairJson : String → String) (s : String) :
    (validateAndFixJson repairJson s = pyStrip (repairJson s) ∨
      validateAndFixJson repairJson s = s) ∧
    (pyStrip (repairJson s) = "" → validateAndFixJson repairJson s = s) ∧
    (pyStrip (repairJson s) = "\"\"" → validateAndFixJson repairJson s = s) ∧
    (pyStrip (repairJson s) ≠ "" → pyStrip (repairJson s) ≠ "\"\"" →
      validateAndFixJson repairJson s = pyStrip (repairJson s)) := by
  unfold validateAndFixJson
  by_cases h1 : pyStrip (repairJson s) = "" <;>
    by_cases h2 : pyStrip (repairJson s) = "\"\"" <;>
      simp [h1, h2]

/-- Witness for the amended C6 theorem: the sentinel (after stripping)
falls back to the original input, a real repair is returned. -/
theorem validate_and_fix_json_spec_witness :
    validateAndFixJson (fun _ => " \"\" ") "x" = "x" ∧
    validateAndFixJson (fun _ => "ok") "x" = "ok" :=
  ⟨(validate_and_fix_json_spec (fun _ => " \"\" ") "x").2.2.1 rfl,
   (validate_and_fix_json_spec (fun _ => "ok") "x").2.2.2 (by decide) (by decide)⟩

/-! ## Key-list facts for the reference merge -/

theorem getKey_eq_none_of_not_mem {d : KVs} {k : String}
    (h : k ∉ d.map Prod.fst) : getKey d k = none := by
  induction d with
  | nil => rfl
  | cons kv rest ih =>
    obtain ⟨k₀, v₀⟩ := kv
    simp only [List.map_cons, List.mem_cons] at h
    push_neg at h
    simp [getKey, Ne.symm h.1, ih h.2]

theorem mem_keys_setKey {d : KVs} {k x : String} {v : JVal} :
    x ∈ (setKey d k v).map Prod.fst ↔ x ∈ d.map Prod.fst ∨ x = k := by
  induction d with
  | nil => simp [setKey]
  | cons kv rest ih =>
    obtain ⟨k₀, v₀⟩ := kv
    by_cases h₀ : k₀ = k
    · subst h₀
      simp [setKey]
      tauto
    · simp [setKey, h₀, ih]
      tauto

theorem nodup_keys_setKey {d : KVs} {k : String} {v : JVal}
    (h : (d.map Prod.fst).Nodup) : ((setKey d k v).map Prod.fst).Nodup := by
  induction d with
  | nil => simp [setKey]
  | cons kv rest ih =>
    obtain ⟨k₀, v₀⟩ := kv
    simp only [List.map_cons, List.nodup_cons] at h
    by_cases h₀ : k₀ = k
    · subst h₀
      simpa [setKey] using h
    · simp only [setKey, h₀, if_false, List.map_cons, List.nodup_cons]
      refine ⟨?_, ih h.2⟩
      rw [mem_keys_setKey]
      rintro (hm | hm)
      · exact h.1 hm
      · exact h₀ hm

theorem nodup_keys_updateKeys {d : KVs} (o : KVs)
    (h : (d.map Prod.fst).Nodup) : ((updateKeys d o).map Prod.fst).Nodup := by
  induction o generalizing d with
  | nil => exact h
  | cons kv rest ih => exact ih (nodup_keys_setKey h)

theorem getKey_updateKeys {d : KVs} (o : KVs) (k : String)
    (hno : (o.map Prod.fst).Nodup) :
    getKey (updateKeys d o) k =
      match getKey o k with
      | some v => some v
      | none => getKey d k := by
  induction o generalizing d with
  | nil => rfl
  | cons kv rest ih =>
    obtain ⟨k₀, v₀⟩ := kv
    simp only [List.map_cons, List.nodup_cons] at hno
    show getKey (updateKeys (setKey d k₀ v₀) rest) k = _
    rw [@ih (setKey d k₀ v₀) hno.2]
    by_cases h₀ : k₀ = k
    · subst h₀
      have : getKey rest k₀ = none := getKey_eq_none_of_not_mem hno.1
      simp [getKey, this, getKey_setKey_self]
    · simp [getKey, h₀, getKey_setKey_ne d _ _ _ (fun hh => h₀ hh.symm)]

theorem getKey_popKey_self_of_nodup {d : KVs} {k : String}
    (h : (d.map Prod.fst).Nodup) : getKey (popKey d k) k = none := by
  induction d with
  | nil => rfl
  | cons kv rest ih =>
    obtain ⟨k₀, v₀⟩ := kv
    simp only [List.map_cons, List.nodup_cons] at h
    by_cases h₀ : k₀ = k
    · subst h₀
      simp only [popKey, if_pos rfl]
      exact getKey_eq_none_of_not_mem h.1
    · simp only [popKey, if_neg h₀, getKey, if_neg h₀]
      exact ih h.2

theorem ensureStrict_succ_obj (fuel : Nat) (d : KVs) (path : List String)
    (root : JVal) :
    ensureStrict (fuel + 1) (.obj d) path root =
      (preRefSteps (fun v p => ensureStrict fuel v p root) d path).bind
        (fun d' => refStep (fun v p => ensureStrict fuel v p root) root d' path) := rfl

theorem refStep_resolves (rec : JVal → List String → Except SchemaErr KVs)
    (root : JVal) (d : KVs) (path : List String) (r : String)
    (href : getKey d "$ref" = some (.str r)) (hr : r ≠ "")
    (hmore : hasMoreThanNKeys d 1 = true) :
    refStep rec root d path =
      (resolveRef root r).bind (fun body =>
        rec (.obj (popKey (updateKeys d (updateKeys body d)) "$ref")) path) := by
  unfold refStep
  rw [href]
  show (if pyTruthy (JVal.str r) = true ∧ hasMoreThanNKeys d 1 = true then
      (resolveRef root r).bind (fun body =>
        rec (.obj (popKey (updateKeys d (updateKeys body d)) "$ref")) path)
    else Except.ok d) = _
  rw [if_pos ⟨by simp [pyTruthy, hr], hmore⟩]

/-! ## Claim C7 -/

/-- C7 counterexample: a schema that is one bare dangling reference (its
target `#/$defs/Missing` exists nowhere) strictifies successfully and
unchanged — the strictifier only attempts resolution for a `$ref`
co-occurring with sibling keys, so a schema containing a reference to a
non-existing path need not fail. -/
theorem dangling_bare_ref_strictifies_cex :
    toStrictJsonSchema 3 (.obj [("$ref", .str "#/$defs/Missing")])
      = .ok [("$ref", .str "#/$defs/Missing")] := rfl

/-- C7 (amended): for every reference that strictification actually
attempts to resolve — a truthy `$ref` still co-occurring with sibling keys
after the earlier normalization steps — a resolution that misses a path
component, walks through a non-object, has a malformed target or a
non-object root makes the whole strictification fail with the
corresponding resolution error (whose constructors carry the offending key
or reference). -/
theorem ref_resolution_failure_propagates (fuel : Nat) (d d7 : KVs)
    (path : List String) (root : JVal) (r : String) (e : SchemaErr)
    (hpre : preRefSteps (fun v p => ensureStrict fuel v p root) d path = .ok d7)
    (href : getKey d7 "$ref" = some (.str r)) (hr : r ≠ "")
    (hmore : hasMoreThanNKeys d7 1 = true)
    (hres : resolveRef root r = .error e) :
    ensureStrict (fuel + 1) (.obj d) path root = .error e := by
  rw [ensureStrict_succ_obj, hpre]
  show refStep (fun v p => ensureStrict fuel v p root) root d7 path = .error e
  rw [refStep_resolves _ root d7 path r href hr hmore, hres]
  rfl

/-- Witness for the amended C7 theorem: a reference with a sibling
description whose target is missing from the root fails with the KeyError
naming the missing component. -/
theorem ref_resolution_failure_witness :
    ensureStrict 2
        (.obj [("$ref", .str "#/$defs/Missing"), ("description", .str "d")])
        [] (.obj []) = .error (.keyError "$defs") :=
  ref_resolution_failure_propagates 1
    [("$ref", .str "#/$defs/Missing"), ("description", .str "d")]
    [("$ref", .str "#/$defs/Missing"), ("description", .str "d")]
    [] (.obj []) "#/$defs/Missing" (.keyError "$defs")
    rfl rfl (by decide) rfl rfl

/-! ## Claim C5 -/

/-- C5 counterexample: the node `{"$ref": "#/$defs/A", "default": null}` is
a `$ref` co-occurring with a sibling key, yet strictification does not
resolve, merge or delete the reference: the null default is dropped first
(line 112), the reference is then bare, and the node strictifies to a
non-self-contained `{"$ref": "#/$defs/A"}` even though the target exists. -/
theorem ref_sibling_default_null_cex :
    ensureStrict 2 (.obj [("$ref", .str "#/$defs/A"), ("default", JVal.null)])
        [] (.obj [("$defs", .obj [("A", .obj [("type", .str "string")])])])
      = .ok [("$ref", .str "#/$defs/A")] ∧
    getKey [("$ref", .str "#/$defs/A")] "$ref" = some (.str "#/$defs/A") :=
  ⟨rfl, rfl⟩

/-- C5 (amended): for every node that still carries a truthy `$ref`
together with at least one sibling key after the earlier normalization
steps (which can themselves remove siblings, as a null `default` or a
spliced single-member `allOf` shows, leaving the reference bare and
unresolved), strictification resolves the reference against the root,
shallow-merges the resolved body underneath the sibling keys with sibling
keys winning on conflict, deletes the `$ref` key from the merged node, and
re-runs strictification on that merged node. -/
theorem ref_with_siblings_merged (fuel : Nat) (d d7 body : KVs)
    (path : List String) (root : JVal) (r : String)
    (hpre : preRefSteps (fun v p => ensureStrict fuel v p root) d path = .ok d7)
    (href : getKey d7 "$ref" = some (.str r)) (hr : r ≠ "")
    (hmore : hasMoreThanNKeys d7 1 = true)
    (hres : resolveRef root r = .ok body)
    (hnd : (d7.map Prod.fst).Nodup) (hnb : (body.map Prod.fst).Nodup) :
    ensureStrict (fuel + 1) (.obj d) path root =
      ensureStrict fuel
        (.obj (popKey (updateKeys d7 (updateKeys body d7)) "$ref")) path root ∧
    getKey (popKey (updateKeys d7 (updateKeys body d7)) "$ref") "$ref" = none ∧
    (∀ k v, k ≠ "$ref" → getKey d7 k = some v →
      getKey (popKey (updateKeys d7 (updateKeys body d7)) "$ref") k = some v) ∧
    (∀ k, k ≠ "$ref" → getKey d7 k = none →
      getKey (popKey (updateKeys d7 (updateKeys body d7)) "$ref") k
        = getKey body k) := by
  have hnu : ((updateKeys body d7).map Prod.fst).Nodup := nodup_keys_updateKeys d7 hnb
  have hnx : ((updateKeys d7 (updateKeys body d7)).map Prod.fst).Nodup :=
    nodup_keys_updateKeys _ hnd
  refine ⟨?_, ?_, ?_, ?_⟩
  · rw [ensureStrict_succ_obj, hpre]
    show refStep (fun v p => ensureStrict fuel v p root) root d7 path = _
    rw [refStep_resolves _ root d7 path r href hr hmore, hres]
    rfl
  · exact getKey_popKey_self_of_nodup hnx
  · intro k v hk hv
    rw [getKey_popKey_ne _ _ _ hk, getKey_updateKeys _ _ hnu,
      getKey_updateKeys _ _ hnd, hv]
  · intro k hk hv
    rw [getKey_popKey_ne _ _ _ hk, getKey_updateKeys _ _ hnu,
      getKey_updateKeys _ _ hnd, hv]
    cases getKey body k <;> rfl

/-- Witness for the amended C5 theorem: a reference with a sibling
description resolving to a string schema is merged (description kept, body
inlined underneath, `$ref` gone) and re-strictified. -/
theorem ref_with_siblings_merged_witness :
    ensureStrict 2
        (.obj [("$ref", .str "#/$defs/A"), ("description", .str "d")])
        [] (.obj [("$defs", .obj [("A", .obj [("type", .str "string")])])]) =
      ensureStrict 1
        (.obj (popKey (updateKeys
          [("$ref", .str "#/$defs/A"), ("description", .str "d")]
          (updateKeys [("type", .str "string")]
            [("$ref", .str "#/$defs/A"), ("description", .str "d")])) "$ref"))
        [] (.obj [("$defs", .obj [("A", .obj [("type", .str "string")])])]) ∧
    getKey (popKey (updateKeys
      [("$ref", .str "#/$defs/A"), ("description", .str "d")]
      (updateKeys [("type", .str "string")]
        [("$ref", .str "#/$defs/A"), ("description", .str "d")])) "$ref") "$ref"
      = none ∧
    (∀ k v, k ≠ "$ref" →
      getKey [("$ref", .str "#/$defs/A"), ("description", .str "d")] k = some v →
      getKey (popKey (updateKeys
        [("$ref", .str "#/$defs/A"), ("description", .str "d")]
        (updateKeys [("type", .str "string")]
          [("$ref", .str "#/$defs/A"), ("description", .str "d")])) "$ref") k
        = some v) ∧
    (∀ k, k ≠ "$ref" →
      getKey [("$ref", .str "#/$defs/A"), ("description", .str "d")] k = none →
      getKey (popKey (updateKeys
        [("$ref", .str "#/$defs/A"), ("description", .str "d")]
        (updateKeys [("type", .str "string")]
          [("$ref", .str "#/$defs/A"), ("description", .str "d")])) "$ref") k
        = getKey [("type", .str "string")] k) :=
  ref_with_siblings_merged 1
    [("$ref", .str "#/$defs/A"), ("description", .str "d")]
    [("$ref", .str "#/$defs/A"), ("description", .str "d")]
    [("type", .str "string")]
    [] (.obj [("$defs", .obj [("A", .obj [("type", .str "string")])])])
    "#/$defs/A" rfl rfl (by decide) rfl rfl (by decide) (by decide)

/-! ## Facts about the structural predicates -/

theorem allDicts_obj (P : KVs → Bool) (kvs : KVs) :
    allDicts P (.obj kvs) = (P kvs && allDictsKVs P kvs) := by
  simp [allDicts]

theorem allDicts_arr (P : KVs → Bool) (xs : List JVal) :
    allDicts P (.arr xs) = allDictsList P xs := by
  simp [allDicts]

theorem allDictsKVs_cons (P : KVs → Bool) (k : String) (v : JVal) (rest : KVs) :
    allDictsKVs P ((k, v) :: rest) = (allDicts P v && allDictsKVs P rest) := by
  simp [allDictsKVs]

theorem allDictsList_cons (P : KVs → Bool) (x : JVal) (xs : List JVal) :
    allDictsList P (x :: xs) = (allDicts P x && allDictsList P xs) := by
  simp [allDictsList]

theorem allDictsKVs_mem {P : KVs → Bool} {d : KVs} {k : String} {v : JVal}
    (h : allDictsKVs P d = true) (hm : (k, v) ∈ d) : allDicts P v = true := by
  induction d with
  | nil => cases hm
  | cons kv rest ih =>
    obtain ⟨k₀, v₀⟩ := kv
    rw [allDictsKVs_cons, Bool.and_eq_true] at h
    rcases List.mem_cons.mp hm with hm' | hm'
    · rw [Prod.mk.injEq] at hm'
      exact hm'.2 ▸ h.1
    · exact ih h.2 hm'

theorem allDictsList_mem {P : KVs → Bool} {xs : List JVal} {x : JVal}
    (h : allDictsList P xs = true) (hm : x ∈ xs) : allDicts P x = true := by
  induction xs with
  | nil => cases hm
  | cons y ys ih =>
    rw [allDictsList_cons, Bool.and_eq_true] at h
    rcases List.mem_cons.mp hm with rfl | hm'
    · exact h.1
    · exact ih h.2 hm'

theorem allDictsKVs_getKey {P : KVs → Bool} {d : KVs} {k : String} {v : JVal}
    (h : allDictsKVs P d = true) (hg : getKey d k = some v) :
    allDicts P v = true := by
  induction d with
  | nil => cases hg
  | cons kv rest ih =>
    obtain ⟨k₀, v₀⟩ := kv
    rw [allDictsKVs_cons, Bool.and_eq_true] at h
    by_cases h₀ : k₀ = k
    · simp only [getKey, if_pos h₀, Option.some.injEq] at hg
      exact hg ▸ h.1
    · simp only [getKey, if_neg h₀] at hg
      exact ih h.2 hg

theorem allDictsKVs_setKey {P : KVs → Bool} {d : KVs} {k : String} {v : JVal}
    (h : allDictsKVs P d = true) (hv : allDicts P v = true) :
    allDictsKVs P (setKey d k v) = true := by
  induction d with
  | nil => simp [setKey, allDictsKVs_cons, allDictsKVs, hv]
  | cons kv rest ih =>
    obtain ⟨k₀, v₀⟩ := kv
    rw [allDictsKVs_cons, Bool.and_eq_true] at h
    by_cases h₀ : k₀ = k <;>
      simp [setKey, h₀, allDictsKVs_cons, h.1, h.2, hv, ih h.2]

theorem allDictsKVs_popKey {P : KVs → Bool} {d : KVs} (k : String)
    (h : allDictsKVs P d = true) : allDictsKVs P (popKey d k) = true := by
  induction d with
  | nil => simpa [popKey] using h
  | cons kv rest ih =>
    obtain ⟨k₀, v₀⟩ := kv
    rw [allDictsKVs_cons, Bool.and_eq_true] at h
    by_cases h₀ : k₀ = k <;>
      simp [popKey, h₀, allDictsKVs_cons, h.1, h.2, ih h.2]

theorem allDictsKVs_updateKeys {P : KVs → Bool} {d o : KVs}
    (h : allDictsKVs P d = true) (ho : allDictsKVs P o = true) :
    allDictsKVs P (updateKeys d o) = true := by
  induction o generalizing d with
  | nil => exact h
  | cons kv rest ih =>
    obtain ⟨k₀, v₀⟩ := kv
    rw [allDictsKVs_cons, Bool.and_eq_true] at ho
    exact ih (allDictsKVs_setKey h ho.1) ho.2

theorem exceptBind_ok {ε α β : Type} (a : α) (f : α → Except ε β) :
    (Except.ok a >>= f) = f a := rfl

theorem exceptBind_err {ε α β : Type} (e : ε) (f : α → Except ε β) :
    ((Except.error e : Except ε α) >>= f) = .error e := rfl

theorem ensureKVs_ok {rec : JVal → List String → Except SchemaErr KVs}
    {base : List String} {kvs kvs' : KVs}
    (h : ensureKVs rec base kvs = .ok kvs') :
    kvs'.map Prod.fst = kvs.map Prod.fst ∧
    ∀ k v', (k, v') ∈ kvs' → ∃ v w, (k, v) ∈ kvs ∧ v' = .obj w ∧
      rec v (base ++ [k]) = .ok w := by
  induction kvs generalizing kvs' with
  | nil =>
    simp only [ensureKVs, Except.ok.injEq] at h
    subst h
    exact ⟨rfl, by simp⟩
  | cons kv rest ih =>
    obtain ⟨k₀, v₀⟩ := kv
    simp only [ensureKVs] at h
    cases hv : rec v₀ (base ++ [k₀]) with
    | error e => rw [hv, exceptBind_err] at h; cases h
    | ok w =>
      rw [hv, exceptBind_ok] at h
      cases hr : ensureKVs rec base rest with
      | error e => rw [hr, exceptBind_err] at h; cases h
      | ok rest' =>
        rw [hr, exceptBind_ok] at h
        cases h
        obtain ⟨ihm, ihv⟩ := ih hr
        refine ⟨by simp [ihm], ?_⟩
        intro k v' hm
        rcases List.mem_cons.mp hm with hm' | hm'
        · rw [Prod.mk.injEq] at hm'
          exact ⟨v₀, w, by simp [hm'.1], hm'.2, hm'.1 ▸ hv⟩
        · obtain ⟨v, w', hvm, hv', hrec⟩ := ihv k v' hm'
          exact ⟨v, w', List.mem_cons_of_mem _ hvm, hv', hrec⟩

theorem ensureListIdx_ok {rec : JVal → List String → Except SchemaErr KVs}
    {base : List String} {i : Nat} {xs xs' : List JVal}
    (h : ensureListIdx rec base i xs = .ok xs') :
    xs'.length = xs.length ∧
    ∀ x' ∈ xs', ∃ (x : JVal) (j : Nat) (w : KVs), x ∈ xs ∧ x' = .obj w ∧
      rec x (base ++ [toString j]) = .ok w := by
  induction xs generalizing xs' i with
  | nil =>
    simp only [ensureListIdx, Except.ok.injEq] at h
    subst h
    exact ⟨rfl, by simp⟩
  | cons x rest ih =>
    simp only [ensureListIdx] at h
    cases hv : rec x (base ++ [toString i]) with
    | error e => rw [hv, exceptBind_err] at h; cases h
    | ok w =>
      rw [hv, exceptBind_ok] at h
      cases hr : ensureListIdx rec base (i + 1) rest with
      | error e => rw [hr, exceptBind_err] at h; cases h
      | ok rest' =>
        rw [hr, exceptBind_ok] at h
        cases h
        obtain ⟨ihl, ihv⟩ := ih hr
        refine ⟨by simp [ihl], ?_⟩
        intro x' hm
        rcases List.mem_cons.mp hm with rfl | hm'
        · exact ⟨x, i, w, List.mem_cons_self _ _, rfl, hv⟩
        · obtain ⟨y, j, w', hym, hy', hrec⟩ := ihv x' hm'
          exact ⟨y, j, w', List.mem_cons_of_mem _ hym, hy', hrec⟩

theorem ensureKVs_id {rec : JVal → List String → Except SchemaErr KVs}
    {base : List String} {kvs : KVs}
    (h : ∀ k v, (k, v) ∈ kvs → ∃ w, v = .obj w ∧ ∀ p, rec v p = .ok w) :
    ensureKVs rec base kvs = .ok kvs := by
  induction kvs with
  | nil => rfl
  | cons kv rest ih =>
    obtain ⟨k₀, v₀⟩ := kv
    obtain ⟨w, hw, hrec⟩ := h k₀ v₀ (List.mem_cons_self _ _)
    simp only [ensureKVs]
    rw [hrec (base ++ [k₀]), exceptBind_ok,
      ih (fun k v hm => h k v (List.mem_cons_of_mem _ hm)), exceptBind_ok]
    rw [hw]

theorem ensureListIdx_id {rec : JVal → List String → Except SchemaErr KVs}
    {base : List String} {xs : List JVal} :
    ∀ {i : Nat},
    (∀ x ∈ xs, ∃ w, x = .obj w ∧ ∀ p, rec x p = .ok w) →
    ensureListIdx rec base i xs = .ok xs := by
  induction xs with
  | nil => intro i h; rfl
  | cons x rest ih =>
    intro i h
    obtain ⟨w, hw, hrec⟩ := h x (List.mem_cons_self _ _)
    simp only [ensureListIdx]
    rw [hrec (base ++ [toString i]), exceptBind_ok,
      ih (fun y hm => h y (List.mem_cons_of_mem _ hm)), exceptBind_ok]
    rw [hw]

theorem getKey_mem {d : KVs} {k : String} {v : JVal}
    (h : getKey d k = some v) : (k, v) ∈ d := by
  induction d with
  | nil => cases h
  | cons kv rest ih =>
    obtain ⟨k₀, v₀⟩ := kv
    by_cases h₀ : k₀ = k
    · subst h₀
      have hv : v₀ = v := by simpa [getKey] using h
      subst hv
      exact List.mem_cons_self _ _
    · simp only [getKey, if_neg h₀] at h
      exact List.mem_cons_of_mem _ (ih h)

theorem jdepth_obj (kvs : KVs) : jdepth (.obj kvs) = 1 + jdepthKVs kvs := by
  simp [jdepth]

theorem jdepth_arr (xs : List JVal) : jdepth (.arr xs) = 1 + jdepthList xs := by
  simp [jdepth]

theorem jdepthKVs_mem {kvs : KVs} {k : String} {v : JVal}
    (h : (k, v) ∈ kvs) : jdepth v ≤ jdepthKVs kvs := by
  induction kvs with
  | nil => cases h
  | cons kv rest ih =>
    obtain ⟨k₀, v₀⟩ := kv
    show jdepth v ≤ jdepthKVs ((k₀, v₀) :: rest)
    have : jdepthKVs ((k₀, v₀) :: rest) = max (jdepth v₀) (jdepthKVs rest) := by
      simp [jdepthKVs]
    rw [this]
    rcases List.mem_cons.mp h with h' | h'
    · rw [Prod.mk.injEq] at h'
      rw [h'.2]
      exact le_max_left _ _
    · exact le_trans (ih h') (le_max_right _ _)

theorem jdepthList_mem {xs : List JVal} {x : JVal}
    (h : x ∈ xs) : jdepth x ≤ jdepthList xs := by
  induction xs with
  | nil => cases h
  | cons y ys ih =>
    have : jdepthList (y :: ys) = max (jdepth y) (jdepthList ys) := by
      simp [jdepthList]
    rw [this]
    rcases List.mem_cons.mp h with rfl | h'
    · exact le_max_left _ _
    · exact le_trans (ih h') (le_max_right _ _)

theorem jdepth_getKey {d : KVs} {k : String} {v : JVal}
    (h : getKey d k = some v) : jdepth v ≤ jdepthKVs d :=
  jdepthKVs_mem (getKey_mem h)

theorem exceptBindDot_ok {ε α β : Type} (a : α) (f : α → Except ε β) :
    Except.bind (Except.ok a) f = f a := rfl

theorem ensureKVs_id_of_strict (g : Nat) (root : JVal)
    (ih : ∀ (d : KVs), IsStrict d → jdepth (.obj d) ≤ g →
      ∀ (path : List String) (root' : JVal),
        ensureStrict g (.obj d) path root' = .ok d)
    (defs : KVs) (hb : jdepthKVs defs ≤ g)
    (hobj : ∀ k v, (k, v) ∈ defs → isObjB v = true)
    (hstr : ∀ k w, (k, JVal.obj w) ∈ defs → IsStrict w) (base : List String) :
    ensureKVs (fun v p => ensureStrict g v p root) base defs = .ok defs := by
  apply ensureKVs_id
  intro k v hm
  have hvo := hobj k v hm
  cases v with
  | obj w =>
    refine ⟨w, rfl, fun p => ih w (hstr k w hm) ?_ p root⟩
    exact le_trans (jdepthKVs_mem hm) hb
  | null => simp [isObjB] at hvo
  | bool b => simp [isObjB] at hvo
  | num n => simp [isObjB] at hvo
  | str s => simp [isObjB] at hvo
  | arr xs => simp [isObjB] at hvo

theorem ensureListIdx_id_of_strict (g : Nat) (root : JVal)
    (ih : ∀ (d : KVs), IsStrict d → jdepth (.obj d) ≤ g →
      ∀ (path : List String) (root' : JVal),
        ensureStrict g (.obj d) path root' = .ok d)
    (xs : List JVal) (hb : jdepthList xs ≤ g)
    (hobj : ∀ x, x ∈ xs → isObjB x = true)
    (hstr : ∀ w, JVal.obj w ∈ xs → IsStrict w) (base : List String) (i : Nat) :
    ensureListIdx (fun v p => ensureStrict g v p root) base i xs = .ok xs := by
  apply ensureListIdx_id
  intro x hm
  have hxo := hobj x hm
  cases x with
  | obj w =>
    refine ⟨w, rfl, fun p => ih w (hstr w hm) ?_ p root⟩
    exact le_trans (jdepthList_mem hm) hb
  | null => simp [isObjB] at hxo
  | bool b => simp [isObjB] at hxo
  | num n => simp [isObjB] at hxo
  | str s => simp [isObjB] at hxo
  | arr ys => simp [isObjB] at hxo

/-- A strict dict is a fixed point of `_ensure_strict_json_schema`: running
the strictifier on it (with any fuel covering its depth, any path and any
root) returns it unchanged. -/
theorem ensureStrict_of_IsStrict :
    ∀ (g : Nat) (d : KVs), IsStrict d → jdepth (.obj d) ≤ g →
      ∀ (path : List String) (root : JVal),
        ensureStrict g (.obj d) path root = .ok d := by
  intro g
  induction g with
  | zero =>
    intro d _ hdep
    rw [jdepth_obj] at hdep
    omega
  | succ g ih =>
    intro d hstrict hdep path root
    rcases hstrict with ⟨_, dObj, dStr, fObj, fStr, apOK, reqOK, pObj, pStr,
      itOK, aObj, aStr, lLen, lObj, lStr, defOK, refOK⟩
    rw [jdepth_obj] at hdep
    have hkd : jdepthKVs d ≤ g := by omega
    have hdefs : defsStep (fun v p => ensureStrict g v p root) d path = .ok d := by
      unfold defsStep
      split
      · rename_i defs heq
        have hb : jdepthKVs defs ≤ g := by
          have h1 := jdepth_getKey heq
          rw [jdepth_obj] at h1
          omega
        rw [ensureKVs_id_of_strict g root ih defs hb
          (fun k v hm => dObj defs k v heq hm)
          (fun k w hm => dStr defs k w heq hm) _, exceptBind_ok,
          setKey_of_getKey_eq _ _ _ heq]
      · rfl
    have hdefinitions :
        definitionsStep (fun v p => ensureStrict g v p root) d path = .ok d := by
      unfold definitionsStep
      split
      · rename_i defs heq
        have hb : jdepthKVs defs ≤ g := by
          have h1 := jdepth_getKey heq
          rw [jdepth_obj] at h1
          omega
        rw [ensureKVs_id_of_strict g root ih defs hb
          (fun k v hm => fObj defs k v heq hm)
          (fun k w hm => fStr defs k w heq hm) _, exceptBind_ok,
          setKey_of_getKey_eq _ _ _ heq]
      · rfl
    have htype : typeStep d = d := by
      unfold typeStep
      split
      · rename_i heq1 heq2
        obtain ⟨x, hx⟩ := apOK heq1
        rw [heq2] at hx
        cases hx
      · rfl
    have hprops :
        propertiesStep (fun v p => ensureStrict g v p root) d path = .ok d := by
      unfold propertiesStep
      split
      · rename_i props heq
        have hb : jdepthKVs props ≤ g := by
          have h1 := jdepth_getKey heq
          rw [jdepth_obj] at h1
          omega
        rw [setKey_of_getKey_eq _ _ _ (reqOK props heq)]
        rw [ensureKVs_id_of_strict g root ih props hb
          (fun k v hm => pObj props k v heq hm)
          (fun k w hm => pStr props k w heq hm) _, exceptBind_ok,
          setKey_of_getKey_eq _ _ _ heq]
      · rfl
    have hitems :
        itemsStep (fun v p => ensureStrict g v p root) d path = .ok d := by
      unfold itemsStep
      split
      · rename_i ikvs heq
        have hb : jdepth (.obj ikvs) ≤ g := by
          have h1 := jdepth_getKey heq
          rw [jdepth_obj] at h1
          rw [jdepth_obj]
          omega
        simp only [ih ikvs (itOK ikvs heq) hb, exceptBind_ok]
        rw [setKey_of_getKey_eq _ _ _ heq]
      · rfl
    have hanyOf :
        anyOfStep (fun v p => ensureStrict g v p root) d path = .ok d := by
      unfold anyOfStep
      split
      · rename_i xs heq
        have hb : jdepthList xs ≤ g := by
          have h1 := jdepth_getKey heq
          rw [jdepth_arr] at h1
          omega
        rw [ensureListIdx_id_of_strict g root ih xs hb
          (fun x hm => aObj xs x heq hm)
          (fun w hm => aStr xs w heq hm) _ 0, exceptBind_ok,
          setKey_of_getKey_eq _ _ _ heq]
      · rfl
    have hallOf :
        allOfStep (fun v p => ensureStrict g v p root) d path = .ok d := by
      unfold allOfStep
      split
      · rename_i x heq
        exact absurd (by simp) (lLen [x] heq)
      · rename_i xs hne heq
        have hb : jdepthList xs ≤ g := by
          have h1 := jdepth_getKey heq
          rw [jdepth_arr] at h1
          omega
        rw [ensureListIdx_id_of_strict g root ih xs hb
          (fun z hm => lObj xs z heq hm)
          (fun w hm => lStr xs w heq hm) _ 0, exceptBind_ok,
          setKey_of_getKey_eq _ _ _ heq]
      · rfl
    have hdefault : defaultStep d = d := by
      unfold defaultStep
      split
      · rename_i heq
        exact absurd heq defOK
      · rfl
    have href :
        refStep (fun v p => ensureStrict g v p root) root d path = .ok d := by
      unfold refStep
      split
      · rename_i rv heq
        rw [if_neg]
        intro hc
        rw [refOK rv heq hc.1] at hc
        exact Bool.false_ne_true hc.2
      · rfl
    have hpre :
        preRefSteps (fun v p => ensureStrict g v p root) d path = .ok d := by
      simp only [preRefSteps, hdefs, exceptBind_ok, hdefinitions, htype,
        hprops, hitems, hanyOf, hallOf, hdefault]
    rw [ensureStrict_succ_obj, hpre]
    simp only [exceptBindDot_ok, href]

theorem bund_nodal {P : KVs → Bool} {d : KVs}
    (h : allDicts P (.obj d) = true) : P d = true := by
  rw [allDicts_obj, Bool.and_eq_true] at h
  exact h.1

theorem bund_vals {P : KVs → Bool} {d : KVs}
    (h : allDicts P (.obj d) = true) : allDictsKVs P d = true := by
  rw [allDicts_obj, Bool.and_eq_true] at h
  exact h.2

theorem bund_mk {P : KVs → Bool} {d : KVs} (h1 : P d = true)
    (h2 : allDictsKVs P d = true) : allDicts P (.obj d) = true := by
  rw [allDicts_obj, Bool.and_eq_true]
  exact ⟨h1, h2⟩

theorem nodup_of_Pnd {d : KVs} (h : allDicts Pnd (.obj d) = true) :
    (d.map Prod.fst).Nodup := by
  have := bund_nodal h
  simpa [Pnd] using this

theorem allDictsList_map_str (P : KVs → Bool) (kvs : KVs) :
    allDictsList P (kvs.map (fun kv => JVal.str kv.1)) = true := by
  induction kvs with
  | nil => rfl
  | cons kv rest ih => simp [allDictsList_cons, allDicts, ih]

theorem walkRef_allDicts {P : KVs → Bool} (ref : String) :
    ∀ (parts : List String) (cur body : KVs),
      allDicts P (.obj cur) = true → walkRef ref cur parts = .ok body →
      allDicts P (.obj body) = true := by
  intro parts
  induction parts with
  | nil =>
    intro cur body hc hw
    cases hw
    exact hc
  | cons k rest ih =>
    intro cur body hc hw
    unfold walkRef at hw
    cases hg : getKey cur k with
    | none => rw [hg] at hw; cases hw
    | some v =>
      rw [hg] at hw
      cases v with
      | obj kvs => exact ih kvs body (allDictsKVs_getKey (bund_vals hc) hg) hw
      | null => cases hw
      | bool b => cases hw
      | num n => cases hw
      | str s => cases hw
      | arr xs => cases hw

theorem resolveRef_allDicts {P : KVs → Bool} {root : JVal} {r : String}
    {body : KVs} (h : allDicts P root = true)
    (hres : resolveRef root r = .ok body) : allDicts P (.obj body) = true := by
  unfold resolveRef at hres
  by_cases hs : startsAux "#/".data r.data = true
  · rw [if_pos hs] at hres
    cases root with
    | obj rkvs => exact walkRef_allDicts r _ rkvs body h hres
    | null => cases hres
    | bool b => cases hres
    | num n => cases hres
    | str s => cases hres
    | arr xs => cases hres
  · rw [if_neg hs] at hres
    cases hres

theorem allDictsKVs_of_mem {P : KVs → Bool} {kvs : KVs}
    (h : ∀ k v, (k, v) ∈ kvs → allDicts P v = true) :
    allDictsKVs P kvs = true := by
  induction kvs with
  | nil => rfl
  | cons kv rest ih =>
    obtain ⟨k₀, v₀⟩ := kv
    rw [allDictsKVs_cons, Bool.and_eq_true]
    exact ⟨h k₀ v₀ (List.mem_cons_self _ _),
      ih (fun k v hm => h k v (List.mem_cons_of_mem _ hm))⟩

theorem allDictsList_of_mem {P : KVs → Bool} {xs : List JVal}
    (h : ∀ x ∈ xs, allDicts P x = true) : allDictsList P xs = true := by
  induction xs with
  | nil => rfl
  | cons y ys ih =>
    rw [allDictsList_cons, Bool.and_eq_true]
    exact ⟨h y (List.mem_cons_self _ _),
      ih (fun x hm => h x (List.mem_cons_of_mem _ hm))⟩

theorem keys_setKey_of_mem {d : KVs} {k : String} {v₀ : JVal} (v : JVal)
    (h : getKey d k = some v₀) :
    (setKey d k v).map Prod.fst = d.map Prod.fst := by
  induction d with
  | nil => cases h
  | cons kv rest ih =>
    obtain ⟨k₀, w₀⟩ := kv
    by_cases h₀ : k₀ = k
    · simp [setKey, h₀]
    · simp only [getKey, if_neg h₀] at h
      simp [setKey, h₀, ih h]

theorem ensureKVs_inv {root : JVal} {rec : JVal → List String → Except SchemaErr KVs}
    (hrec : RecInv root rec) {base : List String} {kvs kvs' : KVs}
    (hnd : allDictsKVs Pnd kvs = true) (hrp : allDictsKVs Prp kvs = true)
    (hok : ensureKVs rec base kvs = .ok kvs') :
    kvs'.map Prod.fst = kvs.map Prod.fst ∧
    allDictsKVs Pnd kvs' = true ∧ allDictsKVs Prp kvs' = true ∧
    (∀ k v, (k, v) ∈ kvs' → isObjB v = true ∧ ∀ w, v = .obj w → IsStrict w) ∧
    (allDictsKVs Pap kvs = true → allDicts Pap root = true →
      allDictsKVs Pap kvs' = true) := by
  obtain ⟨hmap, hval⟩ := ensureKVs_ok hok
  have hsub : ∀ k v', (k, v') ∈ kvs' →
      ∃ v w, (k, v) ∈ kvs ∧ v' = .obj w ∧ rec v (base ++ [k]) = .ok w := hval
  refine ⟨hmap, ?_, ?_, ?_, ?_⟩
  · apply allDictsKVs_of_mem
    intro k v' hm
    obtain ⟨v, w, hvm, rfl, hr⟩ := hsub k v' hm
    exact (hrec v _ w (allDictsKVs_mem hnd hvm) (allDictsKVs_mem hrp hvm) hr).2.1
  · apply allDictsKVs_of_mem
    intro k v' hm
    obtain ⟨v, w, hvm, rfl, hr⟩ := hsub k v' hm
    exact (hrec v _ w (allDictsKVs_mem hnd hvm) (allDictsKVs_mem hrp hvm) hr).2.2.1
  · intro k v' hm
    obtain ⟨v, w, hvm, rfl, hr⟩ := hsub k v' hm
    exact ⟨rfl, fun w' hw => by
      cases hw
      exact (hrec v _ w (allDictsKVs_mem hnd hvm) (allDictsKVs_mem hrp hvm) hr).1⟩
  · intro hap hapr
    apply allDictsKVs_of_mem
    intro k v' hm
    obtain ⟨v, w, hvm, rfl, hr⟩ := hsub k v' hm
    exact (hrec v _ w (allDictsKVs_mem hnd hvm) (allDictsKVs_mem hrp hvm) hr).2.2.2
      (allDictsKVs_mem hap hvm) hapr

theorem ensureListIdx_inv {root : JVal}
    {rec : JVal → List String → Except SchemaErr KVs}
    (hrec : RecInv root rec) {base : List String} {i : Nat} {xs xs' : List JVal}
    (hnd : allDictsList Pnd xs = true) (hrp : allDictsList Prp xs = true)
    (hok : ensureListIdx rec base i xs = .ok xs') :
    xs'.length = xs.length ∧
    allDictsList Pnd xs' = true ∧ allDictsList Prp xs' = true ∧
    (∀ x ∈ xs', isObjB x = true ∧ ∀ w, x = .obj w → IsStrict w) ∧
    (allDictsList Pap xs = true → allDicts Pap root = true →
      allDictsList Pap xs' = true) := by
  obtain ⟨hlen, hval⟩ := ensureListIdx_ok hok
  refine ⟨hlen, ?_, ?_, ?_, ?_⟩
  · apply allDictsList_of_mem
    intro x' hm
    obtain ⟨x, j, w, hxm, rfl, hr⟩ := hval x' hm
    exact (hrec x _ w (allDictsList_mem hnd hxm) (allDictsList_mem hrp hxm) hr).2.1
  · apply allDictsList_of_mem
    intro x' hm
    obtain ⟨x, j, w, hxm, rfl, hr⟩ := hval x' hm
    exact (hrec x _ w (allDictsList_mem hnd hxm) (allDictsList_mem hrp hxm) hr).2.2.1
  · intro x' hm
    obtain ⟨x, j, w, hxm, rfl, hr⟩ := hval x' hm
    exact ⟨rfl, fun w' hw => by
      cases hw
      exact (hrec x _ w (allDictsList_mem hnd hxm) (allDictsList_mem hrp hxm) hr).1⟩
  · intro hap hapr
    apply allDictsList_of_mem
    intro x' hm
    obtain ⟨x, j, w, hxm, rfl, hr⟩ := hval x' hm
    exact (hrec x _ w (allDictsList_mem hnd hxm) (allDictsList_mem hrp hxm) hr).2.2.2
      (allDictsList_mem hap hxm) hapr

theorem allDicts_leaf (P : KVs → Bool) :
    allDicts P .null = true ∧ (∀ b, allDicts P (.bool b) = true) ∧
    (∀ n, allDicts P (.num n) = true) ∧ (∀ s, allDicts P (.str s) = true) := by
  refine ⟨?_, ?_, ?_, ?_⟩ <;> intros <;> simp [allDicts]

theorem popKey_keys_sublist (d : KVs) (k : String) :
    List.Sublist ((popKey d k).map Prod.fst) (d.map Prod.fst) := by
  induction d with
  | nil => simp [popKey]
  | cons kv rest ih =>
    obtain ⟨k₀, v₀⟩ := kv
    by_cases h₀ : k₀ = k
    · simp only [popKey, if_pos h₀, List.map_cons]
      exact (List.sublist_cons_self _ _)
    · simp only [popKey, if_neg h₀, List.map_cons]
      exact ih.cons₂ _

theorem nodup_keys_popKey {d : KVs} (k : String)
    (h : (d.map Prod.fst).Nodup) : ((popKey d k).map Prod.fst).Nodup :=
  h.sublist (popKey_keys_sublist d k)

theorem bundPreds_setKey {d : KVs} {k : String} {v : JVal}
    (hk1 : k ≠ "required") (hk2 : k ≠ "properties")
    (hk3 : k ≠ "additionalProperties")
    (hnd : allDicts Pnd (.obj d) = true) (hrp : allDicts Prp (.obj d) = true)
    (hvnd : allDicts Pnd v = true) (hvrp : allDicts Prp v = true) :
    allDicts Pnd (.obj (setKey d k v)) = true ∧
    allDicts Prp (.obj (setKey d k v)) = true ∧
    (allDicts Pap (.obj d) = true → allDicts Pap v = true →
      allDicts Pap (.obj (setKey d k v)) = true) := by
  refine ⟨bund_mk ?_ (allDictsKVs_setKey (bund_vals hnd) hvnd),
    bund_mk ?_ (allDictsKVs_setKey (bund_vals hrp) hvrp), fun hap hvap =>
      bund_mk ?_ (allDictsKVs_setKey (bund_vals hap) hvap)⟩
  · simp only [Pnd, decide_eq_true_eq]
    exact nodup_keys_setKey (nodup_of_Pnd hnd)
  · have h := bund_nodal hrp
    simp only [Prp] at h ⊢
    rw [getKey_setKey_ne _ _ _ _ (Ne.symm hk1), getKey_setKey_ne _ _ _ _ (Ne.symm hk2)]
    exact h
  · have h := bund_nodal hap
    simp only [Pap] at h ⊢
    rw [getKey_setKey_ne _ _ _ _ (Ne.symm hk3)]
    exact h

theorem bundPreds_popKey {d : KVs} {k : String}
    (hk1 : k ≠ "required") (hk2 : k ≠ "properties")
    (hk3 : k ≠ "additionalProperties")
    (hnd : allDicts Pnd (.obj d) = true) (hrp : allDicts Prp (.obj d) = true) :
    allDicts Pnd (.obj (popKey d k)) = true ∧
    allDicts Prp (.obj (popKey d k)) = true ∧
    (allDicts Pap (.obj d) = true → allDicts Pap (.obj (popKey d k)) = true) := by
  refine ⟨bund_mk ?_ (allDictsKVs_popKey k (bund_vals hnd)),
    bund_mk ?_ (allDictsKVs_popKey k (bund_vals hrp)), fun hap =>
      bund_mk ?_ (allDictsKVs_popKey k (bund_vals hap))⟩
  · simp only [Pnd, decide_eq_true_eq]
    exact nodup_keys_popKey k (nodup_of_Pnd hnd)
  · have h := bund_nodal hrp
    simp only [Prp] at h ⊢
    rw [getKey_popKey_ne _ _ _ (Ne.symm hk1), getKey_popKey_ne _ _ _ (Ne.symm hk2)]
    exact h
  · have h := bund_nodal hap
    simp only [Pap] at h ⊢
    rw [getKey_popKey_ne _ _ _ (Ne.symm hk3)]
    exact h

theorem bundPreds_updateKeys {d o : KVs}
    (hnd : allDicts Pnd (.obj d) = true) (hrp : allDicts Prp (.obj d) = true)
    (hond : allDicts Pnd (.obj o) = true) (horp : allDicts Prp (.obj o) = true) :
    allDicts Pnd (.obj (updateKeys d o)) = true ∧
    allDicts Prp (.obj (updateKeys d o)) = true ∧
    (allDicts Pap (.obj d) = true → allDicts Pap (.obj o) = true →
      allDicts Pap (.obj (updateKeys d o)) = true) := by
  have hno : (o.map Prod.fst).Nodup := nodup_of_Pnd hond
  have hvals : allDictsKVs Pnd (updateKeys d o) = true :=
    allDictsKVs_updateKeys (bund_vals hnd) (bund_vals hond)
  refine ⟨bund_mk ?_ hvals,
    bund_mk ?_ (allDictsKVs_updateKeys (bund_vals hrp) (bund_vals horp)),
    fun hap hoap =>
      bund_mk ?_ (allDictsKVs_updateKeys (bund_vals hap) (bund_vals hoap))⟩
  · simp only [Pnd, decide_eq_true_eq]
    exact nodup_keys_updateKeys o (nodup_of_Pnd hnd)
  · have h := bund_nodal hrp
    have ho := bund_nodal horp
    simp only [Prp] at h ho ⊢
    rw [getKey_updateKeys o _ hno, getKey_updateKeys o _ hno]
    cases hor : getKey o "required" with
    | some v =>
      rw [hor] at ho
      simp only [Option.isSome_some, Bool.not_true, Bool.false_or] at ho
      obtain ⟨w, hw⟩ := Option.isSome_iff_exists.mp ho
      simp [hw]
    | none =>
      cases hdr : getKey d "required" with
      | none => simp
      | some v =>
        rw [hdr] at h
        simp only [Option.isSome_some, Bool.not_true, Bool.false_or] at h
        cases hop : getKey o "properties" <;> simp [h]
  · have h := bund_nodal hap
    have ho := bund_nodal hoap
    simp only [Pap] at h ho ⊢
    rw [getKey_updateKeys o _ hno]
    cases hoa : getKey o "additionalProperties" with
    | some v =>
      rw [hoa] at ho
      exact ho
    | none => exact h

theorem getKey_isSome_iff {d : KVs} {k : String} :
    (getKey d k).isSome = true ↔ k ∈ d.map Prod.fst := by
  induction d with
  | nil => simp [getKey]
  | cons kv rest ih =>
    obtain ⟨k₀, v₀⟩ := kv
    by_cases h₀ : k₀ = k
    · subst h₀
      simp [getKey]
    · simp [getKey, h₀, ih, Ne.symm h₀]

theorem Prp_of_keys_eq {a b : KVs} (h : a.map Prod.fst = b.map Prod.fst)
    (hp : Prp b = true) : Prp a = true := by
  simp only [Prp, Bool.or_eq_true, Bool.not_eq_true'] at hp ⊢
  rcases hp with hp | hp
  · left
    rw [Bool.eq_false_iff] at hp ⊢
    intro hc
    exact hp (getKey_isSome_iff.2 (h ▸ getKey_isSome_iff.1 hc))
  · right
    exact getKey_isSome_iff.2 (h ▸ getKey_isSome_iff.1 hp)

theorem ensureKVs_forward {rec : JVal → List String → Except SchemaErr KVs}
    {base : List String} :
    ∀ {kvs kvs' : KVs}, ensureKVs rec base kvs = .ok kvs' →
      ∀ k v, (k, v) ∈ kvs → ∃ w, rec v (base ++ [k]) = .ok w := by
  intro kvs
  induction kvs with
  | nil =>
    intro kvs' _ k v hm
    cases hm
  | cons kv rest ih =>
    obtain ⟨k₀, v₀⟩ := kv
    intro kvs' hok k v hm
    unfold ensureKVs at hok
    cases h₁ : rec v₀ (base ++ [k₀]) with
    | error e => rw [h₁, exceptBind_err] at hok; cases hok
    | ok w₀ =>
      rw [h₁, exceptBind_ok] at hok
      cases h₂ : ensureKVs rec base rest with
      | error e => rw [h₂, exceptBind_err] at hok; cases hok
      | ok rest' =>
        rcases List.mem_cons.1 hm with hm | hm
        · cases hm
          exact ⟨w₀, h₁⟩
        · exact ih h₂ k v hm

theorem Pap_of_ensureKVs {rec : JVal → List String → Except SchemaErr KVs}
    (hro : RecObj rec) {base : List String} {kvs kvs' : KVs}
    (hok : ensureKVs rec base kvs = .ok kvs') (hap : Pap kvs = true) :
    Pap kvs' = true := by
  obtain ⟨hmap, _⟩ := ensureKVs_ok hok
  cases hg : getKey kvs' "additionalProperties" with
  | none => simp [Pap, hg]
  | some v' =>
    exfalso
    have hmem : "additionalProperties" ∈ kvs.map Prod.fst := by
      rw [← hmap]
      exact getKey_isSome_iff.1 (by rw [hg]; rfl)
    obtain ⟨v, hv⟩ := Option.isSome_iff_exists.mp (getKey_isSome_iff.2 hmem)
    have hvf : v = JVal.bool false := by
      simp only [Pap, hv] at hap
      cases v with
      | bool b =>
        cases b with
        | false => rfl
        | true => cases hap
      | null => cases hap
      | num n => cases hap
      | str s => cases hap
      | arr xs => cases hap
      | obj o => cases hap
    subst hvf
    obtain ⟨w, hw⟩ := ensureKVs_forward hok _ _ (getKey_mem hv)
    cases hro _ _ _ hw

theorem recObj_ensureStrict (fuel : Nat) (root : JVal) :
    RecObj (fun v p => ensureStrict fuel v p root) := by
  intro v p t' h
  cases fuel with
  | zero => cases h
  | succ g =>
    cases v with
    | obj d => rfl
    | null => cases h
    | bool b => cases h
    | num n => cases h
    | str s => cases h
    | arr xs => cases h

theorem IsStrict_of_pre {d : KVs} (h : PreStrict d)
    (href : ∀ rv, getKey d "$ref" = some rv → pyTruthy rv = true →
      hasMoreThanNKeys d 1 = false) : IsStrict d := by
  obtain ⟨h1, h2, h3, h4, h5, h6, h7, h8, h9, h10, h11, h12, h13, h14, h15⟩ := h
  exact .mk d h1 h2 h3 h4 h5 h6 h7 h8 h9 h10 h11 h12 h13 h14 h15 href

theorem defsStep_inv {root : JVal} {rec : JVal → List String → Except SchemaErr KVs}
    (hrec : RecInv root rec) (hro : RecObj rec) {d : KVs} {path : List String}
    {d1 : KVs} (hnd : allDicts Pnd (.obj d) = true)
    (hrp : allDicts Prp (.obj d) = true)
    (hok : defsStep rec d path = .ok d1) :
    allDicts Pnd (.obj d1) = true ∧ allDicts Prp (.obj d1) = true ∧
    (allDicts Pap (.obj d) = true → allDicts Pap root = true →
      allDicts Pap (.obj d1) = true) ∧
    (∀ k, k ≠ "$defs" → getKey d1 k = getKey d k) ∧
    (∀ defs k v, getKey d1 "$defs" = some (.obj defs) → (k, v) ∈ defs →
      isObjB v = true) ∧
    (∀ defs k w, getKey d1 "$defs" = some (.obj defs) →
      (k, JVal.obj w) ∈ defs → IsStrict w) := by
  unfold defsStep at hok
  split at hok
  · rename_i defs heq
    cases he : ensureKVs rec (path ++ ["$defs"]) defs with
    | error e => rw [he, exceptBind_err] at hok; cases hok
    | ok defs' =>
      rw [he, exceptBind_ok] at hok
      cases hok
      have hdobj : allDicts Pnd (.obj defs) = true :=
        allDictsKVs_getKey (bund_vals hnd) heq
      have hdrp : allDicts Prp (.obj defs) = true :=
        allDictsKVs_getKey (bund_vals hrp) heq
      obtain ⟨hmap, hnd', hrp', hstrict, hpap'⟩ :=
        ensureKVs_inv hrec (bund_vals hdobj) (bund_vals hdrp) he
      have hdefs'Pnd : allDicts Pnd (.obj defs') = true := by
        refine bund_mk ?_ hnd'
        simp only [Pnd, decide_eq_true_eq]
        rw [hmap]
        exact nodup_of_Pnd hdobj
      have hdefs'Prp : allDicts Prp (.obj defs') = true :=
        bund_mk (Prp_of_keys_eq hmap (bund_nodal hdrp)) hrp'
      obtain ⟨b1, b2, b3⟩ := bundPreds_setKey (k := "$defs") (by decide)
        (by decide) (by decide) hnd hrp hdefs'Pnd hdefs'Prp
      refine ⟨b1, b2, ?_, ?_, ?_, ?_⟩
      · intro hap hapr
        have hdap : allDicts Pap (.obj defs) = true :=
          allDictsKVs_getKey (bund_vals hap) heq
        exact b3 hap (bund_mk (Pap_of_ensureKVs hro he (bund_nodal hdap))
          (hpap' (bund_vals hdap) hapr))
      · intro k hk
        exact getKey_setKey_ne d "$defs" k _ hk
      · intro ds k v hget hm
        rw [getKey_setKey_self] at hget
        cases hget
        exact (hstrict k v hm).1
      · intro ds k w hget hm
        rw [getKey_setKey_self] at hget
        cases hget
        exact (hstrict k (.obj w) hm).2 w rfl
  · rename_i hne
    cases hok
    exact ⟨hnd, hrp, fun hap _ => hap, fun k _ => rfl,
      fun ds k v hget _ => (hne ds hget).elim,
      fun ds k w hget _ => (hne ds hget).elim⟩

theorem definitionsStep_inv {root : JVal}
    {rec : JVal → List String → Except SchemaErr KVs}
    (hrec : RecInv root rec) (hro : RecObj rec) {d : KVs} {path : List String}
    {d1 : KVs} (hnd : allDicts Pnd (.obj d) = true)
    (hrp : allDicts Prp (.obj d) = true)
    (hok : definitionsStep rec d path = .ok d1) :
    allDicts Pnd (.obj d1) = true ∧ allDicts Prp (.obj d1) = true ∧
    (allDicts Pap (.obj d) = true → allDicts Pap root = true →
      allDicts Pap (.obj d1) = true) ∧
    (∀ k, k ≠ "definitions" → getKey d1 k = getKey d k) ∧
    (∀ defs k v, getKey d1 "definitions" = some (.obj defs) → (k, v) ∈ defs →
      isObjB v = true) ∧
    (∀ defs k w, getKey d1 "definitions" = some (.obj defs) →
      (k, JVal.obj w) ∈ defs → IsStrict w) := by
  unfold definitionsStep at hok
  split at hok
  · rename_i defs heq
    cases he : ensureKVs rec (path ++ ["definitions"]) defs with
    | error e => rw [he, exceptBind_err] at hok; cases hok
    | ok defs' =>
      rw [he, exceptBind_ok] at hok
      cases hok
      have hdobj : allDicts Pnd (.obj defs) = true :=
        allDictsKVs_getKey (bund_vals hnd) heq
      have hdrp : allDicts Prp (.obj defs) = true :=
        allDictsKVs_getKey (bund_vals hrp) heq
      obtain ⟨hmap, hnd', hrp', hstrict, hpap'⟩ :=
        ensureKVs_inv hrec (bund_vals hdobj) (bund_vals hdrp) he
      have hdefs'Pnd : allDicts Pnd (.obj defs') = true := by
        refine bund_mk ?_ hnd'
        simp only [Pnd, decide_eq_true_eq]
        rw [hmap]
        exact nodup_of_Pnd hdobj
      have hdefs'Prp : allDicts Prp (.obj defs') = true :=
        bund_mk (Prp_of_keys_eq hmap (bund_nodal hdrp)) hrp'
      obtain ⟨b1, b2, b3⟩ := bundPreds_setKey (k := "definitions") (by decide)
        (by decide) (by decide) hnd hrp hdefs'Pnd hdefs'Prp
      refine ⟨b1, b2, ?_, ?_, ?_, ?_⟩
      · intro hap hapr
        have hdap : allDicts Pap (.obj defs) = true :=
          allDictsKVs_getKey (bund_vals hap) heq
        exact b3 hap (bund_mk (Pap_of_ensureKVs hro he (bund_nodal hdap))
          (hpap' (bund_vals hdap) hapr))
      · intro k hk
        exact getKey_setKey_ne d "definitions" k _ hk
      · intro ds k v hget hm
        rw [getKey_setKey_self] at hget
        cases hget
        exact (hstrict k v hm).1
      · intro ds k w hget hm
        rw [getKey_setKey_self] at hget
        cases hget
        exact (hstrict k (.obj w) hm).2 w rfl
  · rename_i hne
    cases hok
    exact ⟨hnd, hrp, fun hap _ => hap, fun k _ => rfl,
      fun ds k v hget _ => (hne ds hget).elim,
      fun ds k w hget _ => (hne ds hget).elim⟩

theorem typeStep_inv {d : KVs} (hnd : allDicts Pnd (.obj d) = true)
    (hrp : allDicts Prp (.obj d) = true) :
    allDicts Pnd (.obj (typeStep d)) = true ∧
    allDicts Prp (.obj (typeStep d)) = true ∧
    (allDicts Pap (.obj d) = true → allDicts Pap (.obj (typeStep d)) = true) ∧
    (∀ k, k ≠ "additionalProperties" → getKey (typeStep d) k = getKey d k) ∧
    (getKey (typeStep d) "type" = some (.str "object") →
      ∃ x, getKey (typeStep d) "additionalProperties" = some x) := by
  unfold typeStep
  split
  · rename_i heq1 heq2
    have hfalse : allDicts Pnd (JVal.bool false) = true := by simp [allDicts]
    have hfalse2 : allDicts Prp (JVal.bool false) = true := by simp [allDicts]
    refine ⟨?_, ?_, ?_, ?_, ?_⟩
    · refine bund_mk ?_ (allDictsKVs_setKey (bund_vals hnd) hfalse)
      simp only [Pnd, decide_eq_true_eq]
      exact nodup_keys_setKey (nodup_of_Pnd hnd)
    · refine bund_mk ?_ (allDictsKVs_setKey (bund_vals hrp) hfalse2)
      have h := bund_nodal hrp
      simp only [Prp] at h ⊢
      rw [getKey_setKey_ne _ _ _ _ (by decide), getKey_setKey_ne _ _ _ _ (by decide)]
      exact h
    · intro hap
      refine bund_mk ?_ (allDictsKVs_setKey (bund_vals hap) (by simp [allDicts]))
      simp [Pap, getKey_setKey_self]
    · intro k hk
      exact getKey_setKey_ne d "additionalProperties" k _ hk
    · intro _
      exact ⟨.bool false, getKey_setKey_self _ _ _⟩
  · rename_i hne
    refine ⟨hnd, hrp, fun hap => hap, fun k _ => rfl, ?_⟩
    intro htype
    cases hap : getKey d "additionalProperties" with
    | some x => exact ⟨x, rfl⟩
    | none => exact (hne htype hap).elim

theorem defaultStep_inv {d : KVs} (hnd : allDicts Pnd (.obj d) = true)
    (hrp : allDicts Prp (.obj d) = true) :
    allDicts Pnd (.obj (defaultStep d)) = true ∧
    allDicts Prp (.obj (defaultStep d)) = true ∧
    (allDicts Pap (.obj d) = true → allDicts Pap (.obj (defaultStep d)) = true) ∧
    (∀ k, k ≠ "default" → getKey (defaultStep d) k = getKey d k) ∧
    getKey (defaultStep d) "default" ≠ some JVal.null := by
  unfold defaultStep
  split
  · rename_i heq
    obtain ⟨b1, b2, b3⟩ := bundPreds_popKey (d := d) (k := "default")
      (by decide) (by decide) (by decide) hnd hrp
    refine ⟨b1, b2, b3, ?_, ?_⟩
    · intro k hk
      exact getKey_popKey_ne d "default" k hk
    · rw [getKey_popKey_self_of_nodup (nodup_of_Pnd hnd)]
      simp
  · rename_i hne
    exact ⟨hnd, hrp, fun hap => hap, fun k _ => rfl, fun hc => hne hc⟩

theorem map_str_keys (l : KVs) :
    l.map (fun kv => JVal.str kv.1) = (l.map Prod.fst).map JVal.str := by
  rw [List.map_map]
  rfl

theorem propertiesStep_inv {root : JVal}
    {rec : JVal → List String → Except SchemaErr KVs}
    (hrec : RecInv root rec) (hro : RecObj rec) {d : KVs} {path : List String}
    {d4 : KVs} (hnd : allDicts Pnd (.obj d) = true)
    (hrp : allDicts Prp (.obj d) = true)
    (hok : propertiesStep rec d path = .ok d4) :
    allDicts Pnd (.obj d4) = true ∧ allDicts Prp (.obj d4) = true ∧
    (allDicts Pap (.obj d) = true → allDicts Pap root = true →
      allDicts Pap (.obj d4) = true) ∧
    (∀ k, k ≠ "required" → k ≠ "properties" → getKey d4 k = getKey d k) ∧
    (∀ props, getKey d4 "properties" = some (.obj props) →
      getKey d4 "required" = some (.arr (props.map (fun kv => JVal.str kv.1)))) ∧
    (∀ props k v, getKey d4 "properties" = some (.obj props) → (k, v) ∈ props →
      isObjB v = true) ∧
    (∀ props k w, getKey d4 "properties" = some (.obj props) →
      (k, JVal.obj w) ∈ props → IsStrict w) := by
  unfold propertiesStep at hok
  split at hok
  · rename_i props heq
    cases he : ensureKVs rec (path ++ ["properties"]) props with
    | error e => rw [he, exceptBind_err] at hok; cases hok
    | ok props' =>
      rw [he, exceptBind_ok] at hok
      cases hok
      have hpobj : allDicts Pnd (.obj props) = true :=
        allDictsKVs_getKey (bund_vals hnd) heq
      have hprp : allDicts Prp (.obj props) = true :=
        allDictsKVs_getKey (bund_vals hrp) heq
      obtain ⟨hmap, hnd', hrp', hstrict, hpap'⟩ :=
        ensureKVs_inv hrec (bund_vals hpobj) (bund_vals hprp) he
      have hprops'Pnd : allDicts Pnd (.obj props') = true := by
        refine bund_mk ?_ hnd'
        simp only [Pnd, decide_eq_true_eq]
        rw [hmap]
        exact nodup_of_Pnd hpobj
      have hprops'Prp : allDicts Prp (.obj props') = true :=
        bund_mk (Prp_of_keys_eq hmap (bund_nodal hprp)) hrp'
      have hnames : props.map (fun kv => JVal.str kv.1) =
          props'.map (fun kv => JVal.str kv.1) := by
        rw [map_str_keys, map_str_keys, hmap]
      refine ⟨?_, ?_, ?_, ?_, ?_, ?_, ?_⟩
      · refine bund_mk ?_ (allDictsKVs_setKey
          (allDictsKVs_setKey (bund_vals hnd) (by simp [allDicts, allDictsList_map_str]))
          hprops'Pnd)
        simp only [Pnd, decide_eq_true_eq]
        exact nodup_keys_setKey (nodup_keys_setKey (nodup_of_Pnd hnd))
      · refine bund_mk ?_ (allDictsKVs_setKey
          (allDictsKVs_setKey (bund_vals hrp) (by simp [allDicts, allDictsList_map_str]))
          hprops'Prp)
        simp [Prp, getKey_setKey_self]
      · intro hap hapr
        have hpap : allDicts Pap (.obj props) = true :=
          allDictsKVs_getKey (bund_vals hap) heq
        refine bund_mk ?_ (allDictsKVs_setKey
          (allDictsKVs_setKey (bund_vals hap) (by simp [allDicts, allDictsList_map_str]))
          (bund_mk (Pap_of_ensureKVs hro he (bund_nodal hpap))
            (hpap' (bund_vals hpap) hapr)))
        have h := bund_nodal hap
        simp only [Pap] at h ⊢
        rw [getKey_setKey_ne _ _ _ _ (by decide), getKey_setKey_ne _ _ _ _ (by decide)]
        exact h
      · intro k hk1 hk2
        rw [getKey_setKey_ne _ _ _ _ hk2, getKey_setKey_ne _ _ _ _ hk1]
      · intro P hget
        rw [getKey_setKey_self] at hget
        cases hget
        rw [getKey_setKey_ne _ _ _ _ (by decide), getKey_setKey_self, ← hnames]
      · intro P k v hget hm
        rw [getKey_setKey_self] at hget
        cases hget
        exact (hstrict k v hm).1
      · intro P k w hget hm
        rw [getKey_setKey_self] at hget
        cases hget
        exact (hstrict k (.obj w) hm).2 w rfl
  · rename_i hne
    cases hok
    exact ⟨hnd, hrp, fun hap _ => hap, fun k _ _ => rfl,
      fun P hget => (hne P hget).elim,
      fun P k v hget _ => (hne P hget).elim,
      fun P k w hget _ => (hne P hget).elim⟩

theorem itemsStep_inv {root : JVal}
    {rec : JVal → List String → Except SchemaErr KVs}
    (hrec : RecInv root rec) {d : KVs} {path : List String}
    {d5 : KVs} (hnd : allDicts Pnd (.obj d) = true)
    (hrp : allDicts Prp (.obj d) = true)
    (hok : itemsStep rec d path = .ok d5) :
    allDicts Pnd (.obj d5) = true ∧ allDicts Prp (.obj d5) = true ∧
    (allDicts Pap (.obj d) = true → allDicts Pap root = true →
      allDicts Pap (.obj d5) = true) ∧
    (∀ k, k ≠ "items" → getKey d5 k = getKey d k) ∧
    (∀ ikvs, getKey d5 "items" = some (.obj ikvs) → IsStrict ikvs) := by
  unfold itemsStep at hok
  split at hok
  · rename_i ikvs heq
    cases he : rec (.obj ikvs) (path ++ ["items"]) with
    | error e => rw [he, exceptBind_err] at hok; cases hok
    | ok items' =>
      rw [he, exceptBind_ok] at hok
      cases hok
      have hio : allDicts Pnd (.obj ikvs) = true :=
        allDictsKVs_getKey (bund_vals hnd) heq
      have hir : allDicts Prp (.obj ikvs) = true :=
        allDictsKVs_getKey (bund_vals hrp) heq
      obtain ⟨hstrict, hi1, hi2, hi3⟩ := hrec _ _ _ hio hir he
      obtain ⟨b1, b2, b3⟩ := bundPreds_setKey (k := "items") (by decide)
        (by decide) (by decide) hnd hrp hi1 hi2
      refine ⟨b1, b2, ?_, ?_, ?_⟩
      · intro hap hapr
        exact b3 hap (hi3 (allDictsKVs_getKey (bund_vals hap) heq) hapr)
      · intro k hk
        exact getKey_setKey_ne d "items" k _ hk
      · intro I hget
        rw [getKey_setKey_self] at hget
        cases hget
        exact hstrict
  · rename_i hne
    cases hok
    exact ⟨hnd, hrp, fun hap _ => hap, fun k _ => rfl,
      fun I hget => (hne I hget).elim⟩

theorem anyOfStep_inv {root : JVal}
    {rec : JVal → List String → Except SchemaErr KVs}
    (hrec : RecInv root rec) {d : KVs} {path : List String}
    {d6 : KVs} (hnd : allDicts Pnd (.obj d) = true)
    (hrp : allDicts Prp (.obj d) = true)
    (hok : anyOfStep rec d path = .ok d6) :
    allDicts Pnd (.obj d6) = true ∧ allDicts Prp (.obj d6) = true ∧
    (allDicts Pap (.obj d) = true → allDicts Pap root = true →
      allDicts Pap (.obj d6) = true) ∧
    (∀ k, k ≠ "anyOf" → getKey d6 k = getKey d k) ∧
    (∀ xs x, getKey d6 "anyOf" = some (.arr xs) → x ∈ xs → isObjB x = true) ∧
    (∀ xs w, getKey d6 "anyOf" = some (.arr xs) → JVal.obj w ∈ xs →
      IsStrict w) := by
  unfold anyOfStep at hok
  split at hok
  · rename_i xs heq
    cases he : ensureListIdx rec (path ++ ["anyOf"]) 0 xs with
    | error e => rw [he, exceptBind_err] at hok; cases hok
    | ok xs' =>
      rw [he, exceptBind_ok] at hok
      cases hok
      have hxnd : allDicts Pnd (.arr xs) = true :=
        allDictsKVs_getKey (bund_vals hnd) heq
      have hxrp : allDicts Prp (.arr xs) = true :=
        allDictsKVs_getKey (bund_vals hrp) heq
      rw [allDicts_arr] at hxnd hxrp
      obtain ⟨hlen, hnd', hrp', hstrict, hpap'⟩ :=
        ensureListIdx_inv hrec hxnd hxrp he
      obtain ⟨b1, b2, b3⟩ := bundPreds_setKey (k := "anyOf") (by decide)
        (by decide) (by decide) hnd hrp
        (by rw [allDicts_arr]; exact hnd') (by rw [allDicts_arr]; exact hrp')
      refine ⟨b1, b2, ?_, ?_, ?_, ?_⟩
      · intro hap hapr
        have hxap : allDicts Pap (.arr xs) = true :=
          allDictsKVs_getKey (bund_vals hap) heq
        rw [allDicts_arr] at hxap
        exact b3 hap (by rw [allDicts_arr]; exact hpap' hxap hapr)
      · intro k hk
        exact getKey_setKey_ne d "anyOf" k _ hk
      · intro ys x hget hm
        rw [getKey_setKey_self] at hget
        cases hget
        exact (hstrict x hm).1
      · intro ys w hget hm
        rw [getKey_setKey_self] at hget
        cases hget
        exact (hstrict (.obj w) hm).2 w rfl
  · rename_i hne
    cases hok
    exact ⟨hnd, hrp, fun hap _ => hap, fun k _ => rfl,
      fun ys x hget _ => (hne ys hget).elim,
      fun ys w hget _ => (hne ys hget).elim⟩

theorem allOfStep_inv {root : JVal}
    {rec : JVal → List String → Except SchemaErr KVs}
    (hrec : RecInv root rec) {d : KVs} {path : List String}
    {d7 : KVs} (hnd : allDicts Pnd (.obj d) = true)
    (hrp : allDicts Prp (.obj d) = true)
    (hok : allOfStep rec d path = .ok d7) :
    allDicts Pnd (.obj d7) = true ∧ allDicts Prp (.obj d7) = true ∧
    (allDicts Pap (.obj d) = true → allDicts Pap root = true →
      allDicts Pap (.obj d7) = true) ∧
    ((∃ xk, IsStrict xk ∧ allDicts Prp (.obj xk) = true ∧
        getKey d7 "allOf" = none ∧
        (∀ k, k ≠ "allOf" → getKey d7 k =
          match getKey xk k with
          | some v => some v
          | none => getKey d k)) ∨
      ((∀ k, k ≠ "allOf" → getKey d7 k = getKey d k) ∧
       (∀ xs, getKey d7 "allOf" = some (.arr xs) → xs.length ≠ 1) ∧
       (∀ xs x, getKey d7 "allOf" = some (.arr xs) → x ∈ xs →
         isObjB x = true) ∧
       (∀ xs w, getKey d7 "allOf" = some (.arr xs) → JVal.obj w ∈ xs →
         IsStrict w))) := by
  unfold allOfStep at hok
  split at hok
  · rename_i x heq
    cases he : rec x (path ++ ["allOf", "0"]) with
    | error e => rw [he, exceptBind_err] at hok; cases hok
    | ok xk =>
      rw [he, exceptBind_ok] at hok
      cases hok
      have hxnd : allDicts Pnd x = true := by
        have h := allDictsKVs_getKey (bund_vals hnd) heq
        rw [allDicts_arr] at h
        exact allDictsList_mem h (List.mem_cons_self _ _)
      have hxrp : allDicts Prp x = true := by
        have h := allDictsKVs_getKey (bund_vals hrp) heq
        rw [allDicts_arr] at h
        exact allDictsList_mem h (List.mem_cons_self _ _)
      obtain ⟨hxkStrict, hxk1, hxk2, hxk3⟩ := hrec _ _ _ hxnd hxrp he
      obtain ⟨ub1, ub2, ub3⟩ := bundPreds_updateKeys hnd hrp hxk1 hxk2
      obtain ⟨pb1, pb2, pb3⟩ := bundPreds_popKey (k := "allOf") (by decide)
        (by decide) (by decide) ub1 ub2
      refine ⟨pb1, pb2, ?_, .inl ⟨xk, hxkStrict, hxk2, ?_, ?_⟩⟩
      · intro hap hapr
        have hxap : allDicts Pap x = true := by
          have h := allDictsKVs_getKey (bund_vals hap) heq
          rw [allDicts_arr] at h
          exact allDictsList_mem h (List.mem_cons_self _ _)
        exact pb3 (ub3 hap (hxk3 hxap hapr))
      · exact getKey_popKey_self_of_nodup
          (nodup_keys_updateKeys xk (nodup_of_Pnd hnd))
      · intro k hk
        rw [getKey_popKey_ne _ _ _ hk]
        exact getKey_updateKeys xk k (nodup_of_Pnd hxk1)
  · rename_i xs hne heq
    cases he : ensureListIdx rec (path ++ ["allOf"]) 0 xs with
    | error e => rw [he, exceptBind_err] at hok; cases hok
    | ok xs' =>
      rw [he, exceptBind_ok] at hok
      cases hok
      have hxnd : allDictsList Pnd xs = true := by
        have h := allDictsKVs_getKey (bund_vals hnd) heq
        rwa [allDicts_arr] at h
      have hxrp : allDictsList Prp xs = true := by
        have h := allDictsKVs_getKey (bund_vals hrp) heq
        rwa [allDicts_arr] at h
      obtain ⟨hlen, hnd', hrp', hstrict, hpap'⟩ :=
        ensureListIdx_inv hrec hxnd hxrp he
      obtain ⟨b1, b2, b3⟩ := bundPreds_setKey (k := "allOf") (by decide)
        (by decide) (by decide) hnd hrp
        (by rw [allDicts_arr]; exact hnd') (by rw [allDicts_arr]; exact hrp')
      refine ⟨b1, b2, ?_, .inr ⟨?_, ?_, ?_, ?_⟩⟩
      · intro hap hapr
        have hxap : allDictsList Pap xs = true := by
          have h := allDictsKVs_getKey (bund_vals hap) heq
          rwa [allDicts_arr] at h
        exact b3 hap (by rw [allDicts_arr]; exact hpap' hxap hapr)
      · intro k hk
        exact getKey_setKey_ne d "allOf" k _ hk
      · intro ys hget hl
        rw [getKey_setKey_self] at hget
        cases hget
        rw [hlen] at hl
        obtain ⟨a, ha⟩ := List.length_eq_one.mp hl
        exact hne a (by rw [ha])
      · intro ys y hget hm
        rw [getKey_setKey_self] at hget
        cases hget
        exact (hstrict y hm).1
      · intro ys w hget hm
        rw [getKey_setKey_self] at hget
        cases hget
        exact (hstrict (.obj w) hm).2 w rfl
  · rename_i hne1 hne2
    cases hok
    exact ⟨hnd, hrp, fun hap _ => hap, .inr ⟨fun k _ => rfl,
      fun ys hget _ => (hne2 ys hget).elim,
      fun ys y hget _ => (hne2 ys hget).elim,
      fun ys w hget _ => (hne2 ys hget).elim⟩⟩

theorem preRefSteps_inv {root : JVal}
    {rec : JVal → List String → Except SchemaErr KVs}
    (hrec : RecInv root rec) (hro : RecObj rec) {d : KVs} {path : List String}
    {d8 : KVs} (hnd : allDicts Pnd (.obj d) = true)
    (hrp : allDicts Prp (.obj d) = true)
    (hok : preRefSteps rec d path = .ok d8) :
    allDicts Pnd (.obj d8) = true ∧ allDicts Prp (.obj d8) = true ∧
    (allDicts Pap (.obj d) = true → allDicts Pap root = true →
      allDicts Pap (.obj d8) = true) ∧
    PreStrict d8 := by
  unfold preRefSteps at hok
  cases h1 : defsStep rec d path with
  | error e => rw [h1, exceptBind_err] at hok; cases hok
  | ok d1 =>
  rw [h1, exceptBind_ok] at hok
  cases h2 : definitionsStep rec d1 path with
  | error e => rw [h2, exceptBind_err] at hok; cases hok
  | ok d2 =>
  rw [h2, exceptBind_ok] at hok
  simp only [] at hok
  cases h3 : propertiesStep rec (typeStep d2) path with
  | error e => rw [h3, exceptBind_err] at hok; cases hok
  | ok d4 =>
  rw [h3, exceptBind_ok] at hok
  cases h4 : itemsStep rec d4 path with
  | error e => rw [h4, exceptBind_err] at hok; cases hok
  | ok d5 =>
  rw [h4, exceptBind_ok] at hok
  cases h5 : anyOfStep rec d5 path with
  | error e => rw [h5, exceptBind_err] at hok; cases hok
  | ok d6 =>
  rw [h5, exceptBind_ok] at hok
  cases h6 : allOfStep rec d6 path with
  | error e => rw [h6, exceptBind_err] at hok; cases hok
  | ok d7 =>
  rw [h6, exceptBind_ok] at hok
  cases hok
  obtain ⟨A1, A2, A3, F1, D1, D2⟩ := defsStep_inv hrec hro hnd hrp h1
  obtain ⟨B1, B2, B3, F2, E1, E2⟩ := definitionsStep_inv hrec hro A1 A2 h2
  obtain ⟨C1, C2, C3, F3, T5⟩ := typeStep_inv B1 B2
  obtain ⟨P1, P2, P3, F4, R5, R6, R7⟩ := propertiesStep_inv hrec hro C1 C2 h3
  obtain ⟨I1, I2, I3, F5, I5⟩ := itemsStep_inv hrec P1 P2 h4
  obtain ⟨Y1, Y2, Y3, F6, Y5, Y6⟩ := anyOfStep_inv hrec I1 I2 h5
  obtain ⟨L1, L2, L3, Lcase⟩ := allOfStep_inv hrec Y1 Y2 h6
  obtain ⟨Z1, Z2, Z3, F8, Z5⟩ := defaultStep_inv L1 L2
  refine ⟨Z1, Z2, ?_, ?_⟩
  · intro hap hapr
    exact Z3 (L3 (Y3 (I3 (P3 (C3 (B3 (A3 hap hapr) hapr)) hapr) hapr) hapr) hapr)
  have Hdefs6 : getKey d6 "$defs" = getKey d1 "$defs" := by
    rw [F6 _ (by decide), F5 _ (by decide), F4 _ (by decide) (by decide),
      F3 _ (by decide), F2 _ (by decide)]
  have Hdefinitions6 : getKey d6 "definitions" = getKey d2 "definitions" := by
    rw [F6 _ (by decide), F5 _ (by decide), F4 _ (by decide) (by decide),
      F3 _ (by decide)]
  have Htype6 : getKey d6 "type" = getKey (typeStep d2) "type" := by
    rw [F6 _ (by decide), F5 _ (by decide), F4 _ (by decide) (by decide)]
  have Hap63 : getKey d6 "additionalProperties" =
      getKey (typeStep d2) "additionalProperties" := by
    rw [F6 _ (by decide), F5 _ (by decide), F4 _ (by decide) (by decide)]
  have Hprops64 : getKey d6 "properties" = getKey d4 "properties" := by
    rw [F6 _ (by decide), F5 _ (by decide)]
  have Hreq64 : getKey d6 "required" = getKey d4 "required" := by
    rw [F6 _ (by decide), F5 _ (by decide)]
  have Hitems65 : getKey d6 "items" = getKey d5 "items" := by
    rw [F6 _ (by decide)]
  rcases Lcase with ⟨xk, hxkS, hxkPrp, hAllOf7, G7⟩ | ⟨G7, L5, L6, L7⟩
  · -- single-member allOf spliced: keys come from the member or from d6
    rcases hxkS with ⟨_, xdObj, xdStr, xfObj, xfStr, xapOK, xreqOK, xpObj,
      xpStr, xitOK, xaObj, xaStr, xlLen, xlObj, xlStr, xdefOK, xrefOK⟩
    have K : ∀ k, k ≠ "default" → k ≠ "allOf" →
        getKey (defaultStep d7) k =
          match getKey xk k with
          | some v => some v
          | none => getKey d6 k := by
      intro k h8 h7
      rw [F8 k h8, G7 k h7]
    refine ⟨?_, ?_, ?_, ?_, ?_, ?_, ?_, ?_, ?_, ?_, ?_, ?_, ?_, ?_, Z5⟩
    · intro ds k v hget hm
      rw [K "$defs" (by decide) (by decide)] at hget
      split at hget
      · rename_i hx
        cases hget
        exact xdObj ds k v hx hm
      · rw [Hdefs6] at hget
        exact D1 ds k v hget hm
    · intro ds k w hget hm
      rw [K "$defs" (by decide) (by decide)] at hget
      split at hget
      · rename_i hx
        cases hget
        exact xdStr ds k w hx hm
      · rw [Hdefs6] at hget
        exact D2 ds k w hget hm
    · intro ds k v hget hm
      rw [K "definitions" (by decide) (by decide)] at hget
      split at hget
      · rename_i hx
        cases hget
        exact xfObj ds k v hx hm
      · rw [Hdefinitions6] at hget
        exact E1 ds k v hget hm
    · intro ds k w hget hm
      rw [K "definitions" (by decide) (by decide)] at hget
      split at hget
      · rename_i hx
        cases hget
        exact xfStr ds k w hx hm
      · rw [Hdefinitions6] at hget
        exact E2 ds k w hget hm
    · intro htype
      rw [K "type" (by decide) (by decide)] at htype
      split at htype
      · rename_i hx
        cases htype
        obtain ⟨x, hax⟩ := xapOK hx
        exact ⟨x, by rw [K "additionalProperties" (by decide) (by decide), hax]⟩
      · rw [Htype6] at htype
        obtain ⟨x, hax3⟩ := T5 htype
        cases hxa : getKey xk "additionalProperties" with
        | some y =>
          exact ⟨y, by rw [K "additionalProperties" (by decide) (by decide), hxa]⟩
        | none =>
          exact ⟨x, by
            rw [K "additionalProperties" (by decide) (by decide), hxa, Hap63, hax3]⟩
    · intro P hget
      rw [K "properties" (by decide) (by decide)] at hget
      split at hget
      · rename_i hx
        cases hget
        rw [K "required" (by decide) (by decide), xreqOK P hx]
      · rename_i hx
        have hxro : getKey xk "required" = none := by
          have h := bund_nodal hxkPrp
          simp only [Prp, hx, Option.isSome_none, Bool.or_false,
            Bool.not_eq_true'] at h
          cases hxr : getKey xk "required" with
          | none => rfl
          | some u => rw [hxr] at h; cases h
        rw [Hprops64] at hget
        rw [K "required" (by decide) (by decide), hxro, Hreq64, R5 P hget]
    · intro P k v hget hm
      rw [K "properties" (by decide) (by decide)] at hget
      split at hget
      · rename_i hx
        cases hget
        exact xpObj P k v hx hm
      · rw [Hprops64] at hget
        exact R6 P k v hget hm
    · intro P k w hget hm
      rw [K "properties" (by decide) (by decide)] at hget
      split at hget
      · rename_i hx
        cases hget
        exact xpStr P k w hx hm
      · rw [Hprops64] at hget
        exact R7 P k w hget hm
    · intro I hget
      rw [K "items" (by decide) (by decide)] at hget
      split at hget
      · rename_i hx
        cases hget
        exact xitOK I hx
      · rw [Hitems65] at hget
        exact I5 I hget
    · intro ys x hget hm
      rw [K "anyOf" (by decide) (by decide)] at hget
      split at hget
      · rename_i hx
        cases hget
        exact xaObj ys x hx hm
      · exact Y5 ys x hget hm
    · intro ys w hget hm
      rw [K "anyOf" (by decide) (by decide)] at hget
      split at hget
      · rename_i hx
        cases hget
        exact xaStr ys w hx hm
      · exact Y6 ys w hget hm
    · intro ys hget
      rw [F8 _ (by decide), hAllOf7] at hget
      cases hget
    · intro ys x hget hm
      rw [F8 _ (by decide), hAllOf7] at hget
      cases hget
    · intro ys w hget hm
      rw [F8 _ (by decide), hAllOf7] at hget
      cases hget
  · -- no splice: keys of the result come from d6
    have K : ∀ k, k ≠ "default" → k ≠ "allOf" →
        getKey (defaultStep d7) k = getKey d6 k := by
      intro k h8 h7
      rw [F8 k h8, G7 k h7]
    refine ⟨?_, ?_, ?_, ?_, ?_, ?_, ?_, ?_, ?_, ?_, ?_, ?_, ?_, ?_, Z5⟩
    · intro ds k v hget hm
      rw [K "$defs" (by decide) (by decide), Hdefs6] at hget
      exact D1 ds k v hget hm
    · intro ds k w hget hm
      rw [K "$defs" (by decide) (by decide), Hdefs6] at hget
      exact D2 ds k w hget hm
    · intro ds k v hget hm
      rw [K "definitions" (by decide) (by decide), Hdefinitions6] at hget
      exact E1 ds k v hget hm
    · intro ds k w hget hm
      rw [K "definitions" (by decide) (by decide), Hdefinitions6] at hget
      exact E2 ds k w hget hm
    · intro htype
      rw [K "type" (by decide) (by decide), Htype6] at htype
      obtain ⟨x, hax3⟩ := T5 htype
      exact ⟨x, by
        rw [K "additionalProperties" (by decide) (by decide), Hap63, hax3]⟩
    · intro P hget
      rw [K "properties" (by decide) (by decide), Hprops64] at hget
      rw [K "required" (by decide) (by decide), Hreq64, R5 P hget]
    · intro P k v hget hm
      rw [K "properties" (by decide) (by decide), Hprops64] at hget
      exact R6 P k v hget hm
    · intro P k w hget hm
      rw [K "properties" (by decide) (by decide), Hprops64] at hget
      exact R7 P k w hget hm
    · intro I hget
      rw [K "items" (by decide) (by decide), Hitems65] at hget
      exact I5 I hget
    · intro ys x hget hm
      rw [K "anyOf" (by decide) (by decide)] at hget
      exact Y5 ys x hget hm
    · intro ys w hget hm
      rw [K "anyOf" (by decide) (by decide)] at hget
      exact Y6 ys w hget hm
    · intro ys hget
      rw [F8 _ (by decide)] at hget
      exact L5 ys hget
    · intro ys x hget hm
      rw [F8 _ (by decide)] at hget
      exact L6 ys x hget hm
    · intro ys w hget hm
      rw [F8 _ (by decide)] at hget
      exact L7 ys w hget hm

theorem exceptBindDot_err {ε α β : Type} (e : ε) (f : α → Except ε β) :
    Except.bind (Except.error e) f = .error e := rfl

theorem ensure_invariant :
    ∀ (fuel : Nat) (root : JVal), allDicts Pnd root = true →
      allDicts Prp root = true →
      RecInv root (fun v p => ensureStrict fuel v p root) := by
  intro fuel
  induction fuel with
  | zero =>
    intro root _ _ v p t' _ _ h
    cases h
  | succ g ih =>
    intro root hrnd hrrp v p t' hvnd hvrp hok
    have hrec : RecInv root (fun v p => ensureStrict g v p root) :=
      ih root hrnd hrrp
    have hro : RecObj (fun v p => ensureStrict g v p root) :=
      recObj_ensureStrict g root
    cases v with
    | null => cases hok
    | bool b => cases hok
    | num n => cases hok
    | str s => cases hok
    | arr xs => cases hok
    | obj d =>
      simp only [] at hok
      rw [ensureStrict_succ_obj] at hok
      cases hp : preRefSteps (fun v p => ensureStrict g v p root) d p with
      | error e => rw [hp, exceptBindDot_err] at hok; cases hok
      | ok d8 =>
        rw [hp, exceptBindDot_ok] at hok
        obtain ⟨q1, q2, q3, qpre⟩ := preRefSteps_inv hrec hro hvnd hvrp hp
        unfold refStep at hok
        split at hok
        · rename_i rv heqref
          by_cases hcond : pyTruthy rv = true ∧ hasMoreThanNKeys d8 1 = true
          · rw [if_pos hcond] at hok
            split at hok
            · rename_i ref
              cases hres : resolveRef root ref with
              | error e => rw [hres, exceptBind_err] at hok; cases hok
              | ok body =>
                rw [hres, exceptBind_ok] at hok
                have hbnd : allDicts Pnd (.obj body) = true :=
                  resolveRef_allDicts hrnd hres
                have hbrp : allDicts Prp (.obj body) = true :=
                  resolveRef_allDicts hrrp hres
                obtain ⟨u1, u2, u3⟩ := bundPreds_updateKeys hbnd hbrp q1 q2
                obtain ⟨w1, w2, w3⟩ := bundPreds_updateKeys q1 q2 u1 u2
                obtain ⟨m1, m2, m3⟩ := bundPreds_popKey (k := "$ref")
                  (by decide) (by decide) (by decide) w1 w2
                obtain ⟨s1, s2, s3, s4⟩ := hrec _ _ _ m1 m2 hok
                refine ⟨s1, s2, s3, ?_⟩
                intro hvap hrap
                exact s4 (m3 (w3 (q3 hvap hrap)
                  (u3 (resolveRef_allDicts hrap hres) (q3 hvap hrap)))) hrap
            · cases hok
          · rw [if_neg hcond] at hok
            cases hok
            refine ⟨IsStrict_of_pre qpre ?_, q1, q2, q3⟩
            intro rv' hget htruthy
            rw [heqref] at hget
            cases hget
            cases hmore : hasMoreThanNKeys t' 1 with
            | false => rfl
            | true => exact absurd ⟨htruthy, hmore⟩ hcond
        · rename_i hnone
          cases hok
          refine ⟨IsStrict_of_pre qpre ?_, q1, q2, q3⟩
          intro rv hget _
          rw [hnone] at hget
          cases hget

theorem allDicts_reach {P : KVs → Bool} {s n : JVal} (hr : SchemaReach s n) :
    allDicts P s = true → allDicts P n = true := by
  induction hr with
  | refl v => exact fun h => h
  | intoDefs hget hmem hr ih =>
    intro hs
    exact ih (allDictsKVs_mem
      (bund_vals (allDictsKVs_getKey (bund_vals hs) hget)) hmem)
  | intoDefinitions hget hmem hr ih =>
    intro hs
    exact ih (allDictsKVs_mem
      (bund_vals (allDictsKVs_getKey (bund_vals hs) hget)) hmem)
  | intoProps hget hmem hr ih =>
    intro hs
    exact ih (allDictsKVs_mem
      (bund_vals (allDictsKVs_getKey (bund_vals hs) hget)) hmem)
  | intoItems hget hr ih =>
    intro hs
    exact ih (allDictsKVs_getKey (bund_vals hs) hget)
  | intoAnyOf hget hmem hr ih =>
    intro hs
    refine ih (allDictsList_mem ?_ hmem)
    have h := allDictsKVs_getKey (bund_vals hs) hget
    rwa [allDicts_arr] at h
  | intoAllOf hget hmem hr ih =>
    intro hs
    refine ih (allDictsList_mem ?_ hmem)
    have h := allDictsKVs_getKey (bund_vals hs) hget
    rwa [allDicts_arr] at h

theorem isObjB_exists {v : JVal} (h : isObjB v = true) : ∃ u, v = .obj u := by
  cases v <;> simp [isObjB] at h ⊢

theorem IsStrict_reach_aux {s n : JVal} (hr : SchemaReach s n) :
    ∀ m, s = JVal.obj m → IsStrict m → ∀ w, n = JVal.obj w → IsStrict w := by
  induction hr with
  | refl v =>
    intro m hm hstrict w hw
    cases hm.symm.trans hw
    exact hstrict
  | intoDefs hget hmem hr ih =>
    intro m hm hstrict w hw
    cases hm
    rcases hstrict with ⟨_, dObj, dStr, _, _, _, _, _, _, _, _, _, _, _, _, _, _⟩
    obtain ⟨u, hu⟩ := isObjB_exists (dObj _ _ _ hget hmem)
    exact ih u hu (dStr _ _ u hget (hu ▸ hmem)) w hw
  | intoDefinitions hget hmem hr ih =>
    intro m hm hstrict w hw
    cases hm
    rcases hstrict with ⟨_, _, _, fObj, fStr, _, _, _, _, _, _, _, _, _, _, _, _⟩
    obtain ⟨u, hu⟩ := isObjB_exists (fObj _ _ _ hget hmem)
    exact ih u hu (fStr _ _ u hget (hu ▸ hmem)) w hw
  | intoProps hget hmem hr ih =>
    intro m hm hstrict w hw
    cases hm
    rcases hstrict with ⟨_, _, _, _, _, _, _, pObj, pStr, _, _, _, _, _, _, _, _⟩
    obtain ⟨u, hu⟩ := isObjB_exists (pObj _ _ _ hget hmem)
    exact ih u hu (pStr _ _ u hget (hu ▸ hmem)) w hw
  | intoItems hget hr ih =>
    intro m hm hstrict w hw
    cases hm
    rcases hstrict with ⟨_, _, _, _, _, _, _, _, _, itOK, _, _, _, _, _, _, _⟩
    exact ih _ rfl (itOK _ hget) w hw
  | intoAnyOf hget hmem hr ih =>
    intro m hm hstrict w hw
    cases hm
    rcases hstrict with ⟨_, _, _, _, _, _, _, _, _, _, aObj, aStr, _, _, _, _, _⟩
    obtain ⟨u, hu⟩ := isObjB_exists (aObj _ _ hget hmem)
    exact ih u hu (aStr _ u hget (hu ▸ hmem)) w hw
  | intoAllOf hget hmem hr ih =>
    intro m hm hstrict w hw
    cases hm
    rcases hstrict with ⟨_, _, _, _, _, _, _, _, _, _, _, _, _, lObj, lStr, _, _⟩
    obtain ⟨u, hu⟩ := isObjB_exists (lObj _ _ hget hmem)
    exact ih u hu (lStr _ u hget (hu ▸ hmem)) w hw

theorem IsStrict_reach {t n : KVs} (hr : SchemaReach (.obj t) (.obj n))
    (h : IsStrict t) : IsStrict n :=
  IsStrict_reach_aux hr t rfl h n rfl

/-! ## Claim C3 -/

/-- C3 counterexample: a schema whose root is an object node with a
pre-existing `additionalProperties: true` and a `required` list unrelated
to any properties strictifies successfully and unchanged — lines 57-59
only add `additionalProperties` when the key is absent (they never force
it to `false`), and lines 63-71 only rewrite `required` when a
`properties` dict is present, so the claim's universal form fails on the
raw output. -/
theorem strict_object_nodes_cex :
    toStrictJsonSchema 3 (.obj [("type", .str "object"),
        ("additionalProperties", .bool true), ("required", .arr [.str "x"])])
      = .ok [("type", .str "object"), ("additionalProperties", .bool true),
        ("required", .arr [.str "x"])] := rfl

/-- C3: for a schema with unique keys per dict, `required` only alongside
`properties`, and any pre-existing `additionalProperties` already `false`,
every object node reachable in the strictified result along the edges the
strictifier rewrites (`$defs`/`definitions` entries, property values,
`items`, `anyOf`/`allOf` members) that carries `type: object` carries
`additionalProperties: false`, and every reachable node with a
`properties` dict carries `required` equal to exactly its property-name
list. -/
theorem strict_object_nodes (fuel : Nat) (s : JVal) (t n : KVs)
    (hnd : allDicts Pnd s = true) (hrp : allDicts Prp s = true)
    (hap : allDicts Pap s = true)
    (hok : toStrictJsonSchema fuel s = .ok t)
    (hreach : SchemaReach (.obj t) (.obj n)) :
    (getKey n "type" = some (.str "object") →
      getKey n "additionalProperties" = some (.bool false)) ∧
    (∀ props, getKey n "properties" = some (.obj props) →
      getKey n "required" = some (.arr (props.map (fun kv => JVal.str kv.1)))) := by
  obtain ⟨hstrict, ht1, ht2, ht3⟩ :=
    ensure_invariant fuel s hnd hrp s [] t hnd hrp hok
  have hnStrict : IsStrict n := IsStrict_reach hreach hstrict
  have hnap : allDicts Pap (.obj n) = true :=
    allDicts_reach hreach (ht3 hap hap)
  constructor
  · intro htype
    rcases hnStrict with ⟨_, _, _, _, _, apOK, _, _, _, _, _, _, _, _, _, _, _⟩
    obtain ⟨x, hx⟩ := apOK htype
    have hPap := bund_nodal hnap
    simp only [Pap, hx] at hPap
    cases x with
    | bool b =>
      cases b with
      | false => exact hx
      | true => cases hPap
    | null => cases hPap
    | num n => cases hPap
    | str s => cases hPap
    | arr xs => cases hPap
    | obj o => cases hPap
  · intro props hget
    rcases hnStrict with ⟨_, _, _, _, _, _, reqOK, _, _, _, _, _, _, _, _, _, _⟩
    exact reqOK props hget

/-- C3 witness: strictifying a two-level object schema and looking at its
root node (reachable by reflexivity) shows `additionalProperties: false`
and `required = ["a"]`, via the reachable-node theorem. -/
theorem strict_object_nodes_witness :
    getKey [("type", JVal.str "object"),
        ("properties", JVal.obj [("a", JVal.obj [("type", JVal.str "string")])]),
        ("additionalProperties", JVal.bool false),
        ("required", JVal.arr [JVal.str "a"])] "additionalProperties"
      = some (JVal.bool false) ∧
    getKey [("type", JVal.str "object"),
        ("properties", JVal.obj [("a", JVal.obj [("type", JVal.str "string")])]),
        ("additionalProperties", JVal.bool false),
        ("required", JVal.arr [JVal.str "a"])] "required"
      = some (JVal.arr [JVal.str "a"]) := by
  have h := strict_object_nodes 3
    (.obj [("type", .str "object"),
      ("properties", .obj [("a", .obj [("type", .str "string")])])])
    [("type", .str "object"),
      ("properties", .obj [("a", .obj [("type", .str "string")])]),
      ("additionalProperties", .bool false), ("required", .arr [.str "a"])]
    [("type", .str "object"),
      ("properties", .obj [("a", .obj [("type", .str "string")])]),
      ("additionalProperties", .bool false), ("required", .arr [.str "a"])]
    (by simp [allDicts, allDictsKVs, allDictsList, Pnd, Prp, Pap, getKey])
    (by simp [allDicts, allDictsKVs, allDictsList, Pnd, Prp, Pap, getKey])
    (by simp [allDicts, allDictsKVs, allDictsList, Pnd, Prp, Pap, getKey])
    rfl (SchemaReach.refl _)
  refine ⟨h.1 rfl, ?_⟩
  have h2 := h.2 [("a", JVal.obj [("type", JVal.str "string")])] rfl
  simpa using h2

/-! ## Claim C4 -/

/-- C4 counterexample: strictification is not idempotent on raw schemas.
A single-member `allOf` whose member carries a `required` list is spliced
into the parent with the member's keys winning (line 100), clobbering the
`required` list that lines 63-71 just computed; a second run recomputes
`required` from `properties` and yields a different dict. -/
theorem strictify_not_idempotent_cex :
    toStrictJsonSchema 3 (.obj
        [("properties", .obj [("a", .obj [("type", .str "string")])]),
         ("allOf", .arr [.obj [("required", .arr [.str "x"])]])])
      = .ok [("properties", .obj [("a", .obj [("type", .str "string")])]),
             ("required", .arr [.str "x"])] ∧
    toStrictJsonSchema 3 (.obj
        [("properties", .obj [("a", .obj [("type", .str "string")])]),
         ("required", .arr [.str "x"])])
      = .ok [("properties", .obj [("a", .obj [("type", .str "string")])]),
             ("required", .arr [.str "a"])] :=
  ⟨rfl, rfl⟩

/-- C4: strictification is idempotent on schemas whose dicts have unique
keys and carry `required` only alongside `properties`: a successful
strictification's output, re-strictified with enough fuel for its depth,
is returned unchanged. -/
theorem strictify_idempotent (fuel g : Nat) (s : JVal) (t : KVs)
    (hnd : allDicts Pnd s = true) (hrp : allDicts Prp s = true)
    (hok : toStrictJsonSchema fuel s = .ok t)
    (hg : jdepth (.obj t) ≤ g) :
    toStrictJsonSchema g (.obj t) = .ok t := by
  obtain ⟨hstrict, _, _, _⟩ :=
    ensure_invariant fuel s hnd hrp s [] t hnd hrp hok
  exact ensureStrict_of_IsStrict g t hstrict hg [] (.obj t)

/-- C4 witness: re-strictifying the strictified two-level object schema
returns it unchanged. -/
theorem strictify_idempotent_witness :
    toStrictJsonSchema 4 (.obj [("type", JVal.str "object"),
        ("properties", JVal.obj [("a", JVal.obj [("type", JVal.str "string")])]),
        ("additionalProperties", JVal.bool false),
        ("required", JVal.arr [JVal.str "a"])])
      = .ok [("type", JVal.str "object"),
        ("properties", JVal.obj [("a", JVal.obj [("type", JVal.str "string")])]),
        ("additionalProperties", JVal.bool false),
        ("required", JVal.arr [JVal.str "a"])] :=
  strictify_idempotent 3 4
    (.obj [("type", .str "object"),
      ("properties", .obj [("a", .obj [("type", .str "string")])])])
    [("type", .str "object"),
      ("properties", .obj [("a", .obj [("type", .str "string")])]),
      ("additionalProperties", .bool false), ("required", .arr [.str "a"])]
    (by simp [allDicts, allDictsKVs, allDictsList, Pnd, Prp, getKey])
    (by simp [allDicts, allDictsKVs, allDictsList, Pnd, Prp, getKey])
    rfl
    (by simp [jdepth, jdepthKVs, jdepthList])
